import Mathlib

/-!
Verification of the jsonpp library (headers under `include/jsonpp/`): a shallow
embedding of the value model (`json_value.hpp`), the recursive-descent parser
(`json_parser.hpp`) and the serializer (`json_serializer.hpp`), with theorems
about the behaviours described in the documentation.

Modelling conventions:
* UTF-8 text is a list of bytes (`List Nat`); `std::string` values are byte lists.
* `int64_t` is modelled as `Int` together with the explicit range check that
  `std::from_chars` performs; `double` is modelled as `ℚ` (an exact model of the
  finite values; NaN and infinities are outside the model, and conversions that
  round in IEEE arithmetic are exact here).
* Exceptions become `Except` values.  The C++ error types `parse_exception`,
  `type_exception`, the `std::out_of_range` thrown by `value::at`, and the
  `std::bad_variant_access` thrown by an unchecked `std::get` are the
  constructors of `JErr` below.
* The parser's unbounded recursion (`parse_value` ↔ `parse_array`/`parse_object`)
  is driven by a fuel parameter; the top-level `parse` supplies
  `input.length + 1` fuel, which is shown to be sufficient wherever we prove a
  parse succeeds.
-/

namespace Jsonpp

/-- Bytes accepted by `std::isspace` in the default locale: space, \t, \n, \v, \f, \r.
`skip_whitespace` tests `std::isspace(input_[position_])`. -/
def isWs (b : Nat) : Bool :=
  b == 32 || b == 9 || b == 10 || b == 11 || b == 12 || b == 13

/-- Bytes accepted by `std::isdigit`: `'0'` .. `'9'`. -/
def isDigit (b : Nat) : Bool := 48 ≤ b && b ≤ 57

/-- The JSON value model of `json_value.hpp`: a discriminated union
(`std::variant<null_type, boolean_type, integer_type, number_type, string_type,
array_type, object_type>`).  `object_type` is `std::map<std::string, value,
std::less<>>`, modelled as an association list kept in strictly ascending key
order (the map's iteration order); `string_type` is a byte sequence. -/
inductive JVal where
  | null
  | boolean (b : Bool)
  | integer (i : Int)
  | number (q : ℚ)
  | string (s : List Nat)
  | array (elems : List JVal)
  | object (members : List (List Nat × JVal))
deriving Repr

mutual

/-- Structural equality of values, as generated by the defaulted
`value::operator==` on the variant: alternatives compare equal only when the
active index and the payloads agree (so `integer` and `number` payloads are
never equal, even when numerically equal); arrays compare element-wise and
maps compare their (sorted) pair sequences. -/
def beqV : JVal → JVal → Bool
  | .null, .null => true
  | .boolean a, .boolean b => a == b
  | .integer a, .integer b => a == b
  | .number a, .number b => a == b
  | .string a, .string b => a == b
  | .array a, .array b => beqVList a b
  | .object a, .object b => beqVObj a b
  | _, _ => false

/-- Element-wise equality of value sequences. -/
def beqVList : List JVal → List JVal → Bool
  | [], [] => true
  | a :: as, b :: bs => beqV a b && beqVList as bs
  | _, _ => false

/-- Pair-wise equality of object member sequences. -/
def beqVObj : List (List Nat × JVal) → List (List Nat × JVal) → Bool
  | [], [] => true
  | (k1, v1) :: as, (k2, v2) :: bs => k1 == k2 && beqV v1 v2 && beqVObj as bs
  | _, _ => false

end

mutual

theorem beqV_refl : ∀ a : JVal, beqV a a = true
  | .null => rfl
  | .boolean b => by simp [beqV]
  | .integer i => by simp [beqV]
  | .number q => by simp [beqV]
  | .string s => by simp [beqV]
  | .array xs => by simp [beqV]; exact beqVList_refl xs
  | .object ms => by simp [beqV]; exact beqVObj_refl ms

theorem beqVList_refl : ∀ xs : List JVal, beqVList xs xs = true
  | [] => rfl
  | x :: xs => by simp [beqVList]; exact ⟨beqV_refl x, beqVList_refl xs⟩

theorem beqVObj_refl : ∀ ms : List (List Nat × JVal), beqVObj ms ms = true
  | [] => rfl
  | (k, v) :: ms => by simp [beqVObj]; exact ⟨beqV_refl v, beqVObj_refl ms⟩

end

mutual

theorem beqV_eq : ∀ a b : JVal, beqV a b = true → a = b
  | .null, .null, _ => rfl
  | .boolean a, .boolean b, h => by simp [beqV] at h; simp [h]
  | .integer a, .integer b, h => by simp [beqV] at h; simp [h]
  | .number a, .number b, h => by simp [beqV] at h; simp [h]
  | .string a, .string b, h => by simp [beqV] at h; simp [h]
  | .array a, .array b, h => by
      simp only [beqV] at h
      simp [beqVList_eq a b h]
  | .object a, .object b, h => by
      simp only [beqV] at h
      simp [beqVObj_eq a b h]
  | .null, .boolean _, h | .null, .integer _, h | .null, .number _, h
  | .null, .string _, h | .null, .array _, h | .null, .object _, h
  | .boolean _, .null, h | .boolean _, .integer _, h | .boolean _, .number _, h
  | .boolean _, .string _, h | .boolean _, .array _, h | .boolean _, .object _, h
  | .integer _, .null, h | .integer _, .boolean _, h | .integer _, .number _, h
  | .integer _, .string _, h | .integer _, .array _, h | .integer _, .object _, h
  | .number _, .null, h | .number _, .boolean _, h | .number _, .integer _, h
  | .number _, .string _, h | .number _, .array _, h | .number _, .object _, h
  | .string _, .null, h | .string _, .boolean _, h | .string _, .integer _, h
  | .string _, .number _, h | .string _, .array _, h | .string _, .object _, h
  | .array _, .null, h | .array _, .boolean _, h | .array _, .integer _, h
  | .array _, .number _, h | .array _, .string _, h | .array _, .object _, h
  | .object _, .null, h | .object _, .boolean _, h | .object _, .integer _, h
  | .object _, .number _, h | .object _, .string _, h | .object _, .array _, h =>
      by simp [beqV] at h

theorem beqVList_eq : ∀ a b : List JVal, beqVList a b = true → a = b
  | [], [], _ => rfl
  | x :: xs, y :: ys, h => by
      simp only [beqVList, Bool.and_eq_true] at h
      simp [beqV_eq x y h.1, beqVList_eq xs ys h.2]
  | [], _ :: _, h | _ :: _, [], h => by simp [beqVList] at h

theorem beqVObj_eq : ∀ a b : List (List Nat × JVal), beqVObj a b = true → a = b
  | [], [], _ => rfl
  | (k1, v1) :: xs, (k2, v2) :: ys, h => by
      simp only [beqVObj, Bool.and_eq_true, beq_iff_eq] at h
      simp [h.1.1, beqV_eq v1 v2 h.1.2, beqVObj_eq xs ys h.2]
  | [], _ :: _, h | _ :: _, [], h => by simp [beqVObj] at h

end

instance : DecidableEq JVal := fun a b =>
  if h : beqV a b = true then .isTrue (beqV_eq a b h)
  else .isFalse (fun he => h (he ▸ beqV_refl a))

/-- The `value_type` enumeration of `json_value.hpp`.  Note its declaration
order: `null, boolean, number, integer, string, array, object` — the two
numeric alternatives appear in the OPPOSITE order from the `variant_type`
alternatives (`null, boolean, integer_type, number_type, ...`). -/
inductive ValueType where
  | null
  | boolean
  | number
  | integer
  | string
  | array
  | object
deriving DecidableEq, Repr

/-- `value::type()` returns `static_cast<value_type>(data_.index())`.  The
variant index of the `integer_type` alternative is 2, and the `value_type`
enumerator with rank 2 is `number` (and conversely index 3 maps to `integer`),
so the two numeric tags are swapped by this function. -/
def JVal.type : JVal → ValueType
  | .null => .null
  | .boolean _ => .boolean
  | .integer _ => .number
  | .number _ => .integer
  | .string _ => .string
  | .array _ => .array
  | .object _ => .object

/-- Messages of `type_exception` throws in `json_value.hpp`. -/
inductive TMsg where
  | notBoolean
  | notNumber
  | notString
  | notArray
  | notObject
  | notArrayOrObject
deriving DecidableEq, Repr

/-- Messages of `parse_exception` throws in `json_parser.hpp`, one constructor
per throw site (format arguments kept as payloads). -/
inductive PMsg where
  | unexpectedTrailing
  | unexpectedEnd
  | expectedGot (expected got : Nat)
  | unexpectedChar (c : Nat)
  | invalidNull
  | invalidBool
  | invalidNumber
  | expectedDigitAfterDot
  | expectedDigitInExponent
  | failedParseNumber
  | failedParseInt
  | unterminatedString
  | unterminatedEscape
  | invalidUnicode
  | invalidHexDigit
  | invalidEscape (c : Nat)
  | unescapedControl
  | unterminatedArray
  | trailingCommaArray
  | expectedCommaOrBracket (c : Nat)
  | expectedStringKey
  | unterminatedObject
  | trailingCommaObject
  | expectedCommaOrBrace (c : Nat)
deriving DecidableEq, Repr

/-- The failure outcomes of the library.  `parse`/`type` model `parse_exception`
(message and byte offset) and `type_exception`; `notFound` models the
`std::out_of_range{"Key '{}' not found"}` thrown by `value::at` (it carries the
key and is a distinct dynamic type from both library exceptions);
`badVariantAccess` models `std::bad_variant_access` from an unchecked
`std::get`; `vecIndexUB` marks the out-of-range `std::vector::operator[]`
(undefined behaviour in C++); `fuelExhausted` is an artifact of the fuel-driven
model of the parser's recursion and is never produced when the fuel supplied by
`parse` suffices. -/
inductive JErr where
  | parse (m : PMsg) (pos : Nat)
  | type (m : TMsg)
  | notFound (key : List Nat)
  | badVariantAccess
  | vecIndexUB
  | fuelExhausted
deriving DecidableEq, Repr

/-- `value::is_null()` — `std::holds_alternative<null_type>`. -/
def JVal.is_null : JVal → Bool
  | .null => true
  | _ => false

/-- `value::is_boolean()`. -/
def JVal.is_boolean : JVal → Bool
  | .boolean _ => true
  | _ => false

/-- `value::is_integer()` — `std::holds_alternative<integer_type>` (correct,
unlike `type()`). -/
def JVal.is_integer : JVal → Bool
  | .integer _ => true
  | _ => false

/-- `value::is_number()` — `std::holds_alternative<number_type>` (double). -/
def JVal.is_number : JVal → Bool
  | .number _ => true
  | _ => false

/-- `value::is_string()`. -/
def JVal.is_string : JVal → Bool
  | .string _ => true
  | _ => false

/-- `value::is_array()`. -/
def JVal.is_array : JVal → Bool
  | .array _ => true
  | _ => false

/-- `value::is_object()`. -/
def JVal.is_object : JVal → Bool
  | .object _ => true
  | _ => false

/-- Truncation toward zero of a rational: the model of
`static_cast<int64_t>(double)` (defined in C++ whenever the truncated value is
representable; the out-of-range cast is undefined behaviour, modelled here as
the mathematical truncation). -/
def ratTrunc (q : ℚ) : Int :=
  if q < 0 then -((q.num.natAbs / q.den : Nat) : Int) else ((q.num.natAbs / q.den : Nat) : Int)

/-- `value::as_boolean()`: payload if boolean-tagged, otherwise
`type_exception{"Value is not a boolean"}`. -/
def JVal.as_boolean : JVal → Except JErr Bool
  | .boolean b => .ok b
  | _ => .error (.type .notBoolean)

/-- `value::as_integer()`: the payload when integer-tagged, the truncated
payload when number-tagged, otherwise `type_exception{"Value is not a number"}`. -/
def JVal.as_integer : JVal → Except JErr Int
  | .integer i => .ok i
  | .number q => .ok (ratTrunc q)
  | _ => .error (.type .notNumber)

/-- `value::as_number()`: the payload when number-tagged, the widened payload
when integer-tagged (exact here; IEEE widening rounds for `|i| > 2^53`),
otherwise `type_exception{"Value is not a number"}`. -/
def JVal.as_number : JVal → Except JErr ℚ
  | .number q => .ok q
  | .integer i => .ok (i : ℚ)
  | _ => .error (.type .notNumber)

/-- `value::as_string()`. -/
def JVal.as_string : JVal → Except JErr (List Nat)
  | .string s => .ok s
  | _ => .error (.type .notString)

/-- `value::as_array()`. -/
def JVal.as_array : JVal → Except JErr (List JVal)
  | .array a => .ok a
  | _ => .error (.type .notArray)

/-- `value::as_object()`. -/
def JVal.as_object : JVal → Except JErr (List (List Nat × JVal))
  | .object m => .ok m
  | _ => .error (.type .notObject)

/-- `value::size()`: container size on array or object, otherwise
`type_exception{"Value is not an array or object"}`. -/
def JVal.size : JVal → Except JErr Nat
  | .array a => .ok a.length
  | .object m => .ok m.length
  | _ => .error (.type .notArrayOrObject)

/-- `value::empty()`. -/
def JVal.empty : JVal → Except JErr Bool
  | .array a => .ok a.isEmpty
  | .object m => .ok m.isEmpty
  | _ => .error (.type .notArrayOrObject)

/-- `value::push_back(value)`: appends on an array, otherwise
`type_exception{"Value is not an array"}` (functional: returns the new value). -/
def JVal.push_back : JVal → JVal → Except JErr JVal
  | .array a, v => .ok (.array (a ++ [v]))
  | _, _ => .error (.type .notArray)

/-- `value::operator[](size_t)`: an UNCHECKED `std::get<array_type>(data_)`
followed by `std::vector::operator[]`.  On a non-array value `std::get` throws
`std::bad_variant_access` (not a `type_exception`); an out-of-range index on an
array is undefined behaviour (`vecIndexUB`). -/
def JVal.indexPos : JVal → Nat → Except JErr JVal
  | .array a, i =>
    match a[i]? with
    | some v => .ok v
    | none => .error .vecIndexUB
  | _, _ => .error .badVariantAccess

/-- Lexicographic byte-wise strict order on strings: the order of
`std::less<>` on `std::string` (unsigned `char` comparison). -/
def ltB : List Nat → List Nat → Bool
  | [], [] => false
  | [], _ :: _ => true
  | _ :: _, [] => false
  | a :: as, b :: bs => if a < b then true else if b < a then false else ltB as bs

/-- `std::map::find` on the sorted association list (lookup by key equality). -/
def mapFind : List (List Nat × JVal) → List Nat → Option JVal
  | [], _ => none
  | (k, v) :: rest, key => if k = key then some v else mapFind rest key

/-- `std::map::emplace(key, val)` on the sorted association list: inserts the
pair at its ordered position if the key is absent, and is a NO-OP when the key
is already present (emplace does not overwrite). -/
def mapEmplace : List (List Nat × JVal) → List Nat → JVal → List (List Nat × JVal)
  | [], key, v => [(key, v)]
  | (k, w) :: rest, key, v =>
    if ltB key k then (key, v) :: (k, w) :: rest
    else if key = k then (k, w) :: rest
    else (k, w) :: mapEmplace rest key v

/-- `value::contains(key)`: false on a non-object, otherwise a map lookup. -/
def JVal.contains : JVal → List Nat → Bool
  | .object m, key => (mapFind m key).isSome
  | _, _ => false

/-- `value::at(key)` (strict keyed lookup): `type_exception{"Value is not an
object"}` on a non-object; on an object, the mapped value if the key is
present, otherwise `std::out_of_range{format("Key '{}' not found", key)}` —
modelled by `JErr.notFound key`.  The lookup never modifies the value. -/
def JVal.atKey : JVal → List Nat → Except JErr JVal
  | .object m, key =>
    match mapFind m key with
    | some v => .ok v
    | none => .error (.notFound key)
  | _, _ => .error (.type .notObject)

/-! ### Parser (`json_parser.hpp`)

The parser owns an immutable input and an advancing byte offset.  We thread the
pair (current offset, remaining input); the offset is only recorded in results
and error positions, never inspected, exactly as in the C++ code. -/

/-- `parser::skip_whitespace()`: advance while `std::isspace`. -/
def skipWs : Nat → List Nat → Nat × List Nat
  | pos, b :: rest => if isWs b then skipWs (pos + 1) rest else (pos, b :: rest)
  | pos, [] => (pos, [])

/-- `parser::parse_null()`: the next four bytes must be `null`, else
`parse_exception{"Invalid null literal", position_}`. -/
def parse_null (pos : Nat) (s : List Nat) : Except JErr (JVal × Nat × List Nat) :=
  match s with
  | 110 :: 117 :: 108 :: 108 :: rest => .ok (.null, pos + 4, rest)
  | _ => .error (.parse .invalidNull pos)

/-- `parser::parse_boolean()`: `true` or `false` by exact substring match, else
`parse_exception{"Invalid boolean literal", position_}`. -/
def parse_boolean (pos : Nat) (s : List Nat) : Except JErr (JVal × Nat × List Nat) :=
  match s with
  | 116 :: 114 :: 117 :: 101 :: rest => .ok (.boolean true, pos + 4, rest)
  | 102 :: 97 :: 108 :: 115 :: 101 :: rest => .ok (.boolean false, pos + 5, rest)
  | _ => .error (.parse .invalidBool pos)

/-- The maximal run of digit bytes at the head of the input (the `while
(peek() && isdigit(*peek())) ++position_` loops of `parse_number`). -/
def takeDigits : Nat → List Nat → List Nat × Nat × List Nat
  | pos, b :: rest =>
    if isDigit b then
      let (ds, pos', rest') := takeDigits (pos + 1) rest
      (b :: ds, pos', rest')
    else ([], pos, b :: rest)
  | pos, [] => ([], pos, [])

/-- Numeric value of a decimal digit-byte run (what `std::from_chars`
accumulates). -/
def digitsToNat (ds : List Nat) : Nat :=
  ds.foldl (fun acc d => acc * 10 + (d - 48)) 0

/-- The optional fractional part of `parse_number`: on `'.'` it requires at
least one digit (`parse_exception{"Invalid number: expected digit after '.'"}`)
and consumes the digit run; with no `'.'` it consumes nothing. -/
def fracPart (pos : Nat) (s : List Nat) :
    Except JErr (Option (List Nat) × Nat × List Nat) :=
  match s with
  | 46 :: s3 =>
    match s3 with
    | c :: _ =>
      if isDigit c then
        let (ds, pos', rest') := takeDigits (pos + 1) s3
        .ok (some ds, pos', rest')
      else .error (.parse .expectedDigitAfterDot (pos + 1))
    | [] => .error (.parse .expectedDigitAfterDot (pos + 1))
  | _ => .ok (none, pos, s)

/-- The optional exponent part of `parse_number`: on `e`/`E`, an optional sign
then at least one digit (`parse_exception{"Invalid number: expected digit in
exponent"}`); the result records the sign and the digit run. -/
def expPart (pos : Nat) (s : List Nat) :
    Except JErr (Option (Bool × List Nat) × Nat × List Nat) :=
  match s with
  | e :: s1 =>
    if e = 101 ∨ e = 69 then
      let (eneg, pos1, s2) :=
        match s1 with
        | 43 :: r => (false, pos + 2, r)
        | 45 :: r => (true, pos + 2, r)
        | _ => (false, pos + 1, s1)
      match s2 with
      | c :: _ =>
        if isDigit c then
          let (ds, pos', rest') := takeDigits pos1 s2
          .ok (some (eneg, ds), pos', rest')
        else .error (.parse .expectedDigitInExponent pos1)
      | [] => .error (.parse .expectedDigitInExponent pos1)
    else .ok (none, pos, e :: s1)
  | [] => .ok (none, pos, [])

/-- `parser::parse_number()`: optional `-`; integer part either the single
digit `0` or a maximal digit run; optional fraction and exponent.  Without
fraction and exponent the token is converted by `std::from_chars` to `int64_t`
(out-of-range is `parse_exception{"Failed to parse integer", start}`), and
otherwise to `double` — modelled exactly as the rational value of the decimal
token (`from_chars` rounds to the nearest double and can overflow; those IEEE
effects are outside this model). -/
def parse_number (pos : Nat) (s : List Nat) : Except JErr (JVal × Nat × List Nat) :=
  let start := pos
  let (neg, pos1, s1) :=
    if s.headD 0 = 45 then (true, pos + 1, s.tail) else (false, pos, s)
  match s1 with
  | [] => .error (.parse .invalidNumber start)
  | b :: rest =>
    if isDigit b then
      let (ids, pos2, s2) :=
        if b = 48 then ([48], pos1 + 1, rest) else takeDigits pos1 (b :: rest)
      match fracPart pos2 s2 with
      | .error e => .error e
      | .ok (fr, pos3, s3) =>
        match expPart pos3 s3 with
        | .error e => .error e
        | .ok (ex, pos4, s4) =>
          match fr, ex with
          | none, none =>
            let n : Int := (if neg then -1 else 1) * (digitsToNat ids : Int)
            if -(2 ^ 63) ≤ n ∧ n ≤ 2 ^ 63 - 1 then .ok (.integer n, pos4, s4)
            else .error (.parse .failedParseInt start)
          | _, _ =>
            let mant : ℚ := (digitsToNat ids : ℚ) +
              (match fr with
               | some fds => (digitsToNat fds : ℚ) / 10 ^ fds.length
               | none => 0)
            let v : ℚ :=
              match ex with
              | some (eneg, eds) =>
                if eneg then mant / 10 ^ digitsToNat eds else mant * 10 ^ digitsToNat eds
              | none => mant
            .ok (.number (if neg then -v else v), pos4, s4)
    else .error (.parse .invalidNumber start)

/-- Hexadecimal value of a byte for `\uXXXX` escapes (case-insensitive, as in
the parser's explicit `0-9` / `a-f` / `A-F` ranges). -/
def hexVal (b : Nat) : Option Nat :=
  if 48 ≤ b ∧ b ≤ 57 then some (b - 48)
  else if 97 ≤ b ∧ b ≤ 102 then some (b - 97 + 10)
  else if 65 ≤ b ∧ b ≤ 70 then some (b - 65 + 10)
  else none

/-- UTF-8 encoding of a code point up to 0xFFFF as emitted for a `\uXXXX`
escape: 1 byte up to 0x7F, 2 bytes up to 0x7FF, 3 bytes otherwise.  Each escape
is encoded independently; surrogate pairs are never recombined. -/
def utf8Encode (c : Nat) : List Nat :=
  if c ≤ 0x7F then [c]
  else if c ≤ 0x7FF then [0xC0 ||| (c >>> 6), 0x80 ||| (c &&& 0x3F)]
  else [0xE0 ||| (c >>> 12), 0x80 ||| ((c >>> 6) &&& 0x3F), 0x80 ||| (c &&& 0x3F)]

/-- The scan loop of `parser::parse_string()` after the opening quote: `pos`
the offset of the next byte, `acc` the bytes decoded so far.  Handles the seven
named escapes, `\/`, `\uXXXX` (exactly four hex digits, each checked in order),
rejects unescaped control bytes, and stops at the closing quote. -/
def strLoop : Nat → List Nat → List Nat → Except JErr (List Nat × Nat × List Nat)
  | pos, [], _ => .error (.parse .unterminatedString pos)
  | pos, b :: rest, acc =>
    if b = 34 then .ok (acc, pos + 1, rest)
    else if b = 92 then
      match rest with
      | [] => .error (.parse .unterminatedEscape (pos + 1))
      | e :: rest2 =>
        if e = 34 then strLoop (pos + 2) rest2 (acc ++ [34])
        else if e = 92 then strLoop (pos + 2) rest2 (acc ++ [92])
        else if e = 47 then strLoop (pos + 2) rest2 (acc ++ [47])
        else if e = 98 then strLoop (pos + 2) rest2 (acc ++ [8])
        else if e = 102 then strLoop (pos + 2) rest2 (acc ++ [12])
        else if e = 110 then strLoop (pos + 2) rest2 (acc ++ [10])
        else if e = 114 then strLoop (pos + 2) rest2 (acc ++ [13])
        else if e = 116 then strLoop (pos + 2) rest2 (acc ++ [9])
        else if e = 117 then
          match rest2 with
          | h1 :: h2 :: h3 :: h4 :: rest6 =>
            match hexVal h1 with
            | none => .error (.parse .invalidHexDigit (pos + 2))
            | some d1 =>
              match hexVal h2 with
              | none => .error (.parse .invalidHexDigit (pos + 3))
              | some d2 =>
                match hexVal h3 with
                | none => .error (.parse .invalidHexDigit (pos + 4))
                | some d3 =>
                  match hexVal h4 with
                  | none => .error (.parse .invalidHexDigit (pos + 5))
                  | some d4 =>
                    strLoop (pos + 6) rest6
                      (acc ++ utf8Encode (((d1 * 16 + d2) * 16 + d3) * 16 + d4))
          | _ => .error (.parse .invalidUnicode (pos + 2))
        else .error (.parse (.invalidEscape e) (pos + 1))
    else if b < 32 then .error (.parse .unescapedControl pos)
    else strLoop (pos + 1) rest (acc ++ [b])

/-- `parser::parse_string()` (returning the raw byte string): `expect('"')`
then the scan loop.  `expect` reports `"Expected '\"', got ..."` at the
consumed byte's offset, or `"Unexpected end of input"` at end of input. -/
def parse_string_raw (pos : Nat) (s : List Nat) : Except JErr (List Nat × Nat × List Nat) :=
  match s with
  | 34 :: rest => strLoop (pos + 1) rest []
  | b :: _ => .error (.parse (.expectedGot 34 b) pos)
  | [] => .error (.parse .unexpectedEnd pos)

mutual

/-- `parser::parse_value()`: skip whitespace and dispatch on the next byte
(`n` null, `t`/`f` boolean, `"` string, `[` array, `{` object, `-`/digit
number, otherwise `parse_exception{"Unexpected character ..."}`).  The fuel
argument bounds the recursion depth of the model; `parse` supplies enough. -/
def parse_value : Nat → Nat → List Nat → Except JErr (JVal × Nat × List Nat)
  | 0, _, _ => .error .fuelExhausted
  | f + 1, pos, s =>
    match skipWs pos s with
    | (pos1, s1) =>
      match s1 with
      | [] => .error (.parse .unexpectedEnd pos1)
      | c :: _ =>
        if c = 110 then parse_null pos1 s1
        else if c = 116 ∨ c = 102 then parse_boolean pos1 s1
        else if c = 34 then
          match parse_string_raw pos1 s1 with
          | .error e => .error e
          | .ok (str, pos2, s2) => .ok (.string str, pos2, s2)
        else if c = 91 then parse_array f pos1 s1
        else if c = 123 then parse_object f pos1 s1
        else if c = 45 ∨ isDigit c then parse_number pos1 s1
        else .error (.parse (.unexpectedChar c) pos1)

/-- `parser::parse_array()`: `expect('[')`, skip whitespace, `]` for the empty
array, otherwise the element loop. -/
def parse_array : Nat → Nat → List Nat → Except JErr (JVal × Nat × List Nat)
  | f, pos, s =>
    match s with
    | [] => .error (.parse .unexpectedEnd pos)
    | b :: rest =>
      if b = 91 then
        match skipWs (pos + 1) rest with
        | (pos1, s1) =>
          if s1.headD 0 = 93 then .ok (.array [], pos1 + 1, s1.tail)
          else arrLoop f pos1 s1 []
      else .error (.parse (.expectedGot 91 b) pos)

/-- The element loop of `parse_array`: parse a value, then `]` closes, `,`
continues (a `]` right after the `,` is `"Trailing comma in array"`), end of
input is `"Unterminated array"`, anything else `"Expected ',' or ']'"`. -/
def arrLoop : Nat → Nat → List Nat → List JVal → Except JErr (JVal × Nat × List Nat)
  | 0, _, _, _ => .error .fuelExhausted
  | f + 1, pos, s, acc =>
    match parse_value f pos s with
    | .error e => .error e
    | .ok (v, pos1, s1) =>
      match skipWs pos1 s1 with
      | (pos2, s2) =>
        match s2 with
        | [] => .error (.parse .unterminatedArray pos2)
        | c :: rest =>
          if c = 93 then .ok (.array (acc ++ [v]), pos2 + 1, rest)
          else if c = 44 then
            match skipWs (pos2 + 1) rest with
            | (pos3, s3) =>
              if s3.headD 0 = 93 then .error (.parse .trailingCommaArray pos3)
              else arrLoop f pos3 s3 (acc ++ [v])
          else .error (.parse (.expectedCommaOrBracket c) pos2)

/-- `parser::parse_object()`: `expect('{')`, skip whitespace, `}` for the empty
object, otherwise the member loop. -/
def parse_object : Nat → Nat → List Nat → Except JErr (JVal × Nat × List Nat)
  | f, pos, s =>
    match s with
    | [] => .error (.parse .unexpectedEnd pos)
    | b :: rest =>
      if b = 123 then
        match skipWs (pos + 1) rest with
        | (pos1, s1) =>
          if s1.headD 0 = 125 then .ok (.object [], pos1 + 1, s1.tail)
          else objLoop f pos1 s1 []
      else .error (.parse (.expectedGot 123 b) pos)

/-- The member loop of `parse_object`: a string key (else `"Expected string key
in object"`), `expect(':')`, a value, then `result.emplace(key, val)` — which
KEEPS an existing entry for a repeated key — and `}` closes, `,` continues
(`"Trailing comma in object"` if `}` follows), end of input is `"Unterminated
object"`, anything else `"Expected ',' or '}'"`. -/
def objLoop : Nat → Nat → List Nat → List (List Nat × JVal) →
    Except JErr (JVal × Nat × List Nat)
  | 0, _, _, _ => .error .fuelExhausted
  | f + 1, pos, s, acc =>
    match skipWs pos s with
    | (pos1, s1) =>
      match s1 with
      | [] => .error (.parse .expectedStringKey pos1)
      | c0 :: _ =>
        if c0 = 34 then
          match parse_string_raw pos1 s1 with
          | .error e => .error e
          | .ok (key, pos2, s2) =>
            match skipWs pos2 s2 with
            | (pos3, s3) =>
              match s3 with
              | [] => .error (.parse .unexpectedEnd pos3)
              | c :: s4 =>
                if c = 58 then
                  match skipWs (pos3 + 1) s4 with
                  | (pos4, s5) =>
                    match parse_value f pos4 s5 with
                    | .error e => .error e
                    | .ok (v, pos5, s6) =>
                      match skipWs pos5 s6 with
                      | (pos6, s7) =>
                        match s7 with
                        | [] => .error (.parse .unterminatedObject pos6)
                        | c2 :: rest =>
                          if c2 = 125 then .ok (.object (mapEmplace acc key v), pos6 + 1, rest)
                          else if c2 = 44 then
                            match skipWs (pos6 + 1) rest with
                            | (pos7, s8) =>
                              if s8.headD 0 = 125 then
                                .error (.parse .trailingCommaObject pos7)
                              else objLoop f pos7 s8 (mapEmplace acc key v)
                          else .error (.parse (.expectedCommaOrBrace c2) pos6)
                else .error (.parse (.expectedGot 58 c) pos3)
        else .error (.parse .expectedStringKey pos1)

end

/-- `parser::parse()` / the `jsonpp::parse` entry point: skip leading
whitespace, parse one value, skip trailing whitespace, and fail with
`"Unexpected characters after JSON value"` if input remains.  The fuel
`input.length + 1` is sufficient for every input the parser accepts. -/
def parse (s : List Nat) : Except JErr JVal :=
  match skipWs 0 s with
  | (pos0, s0) =>
    match parse_value (s.length + 1) pos0 s0 with
    | .error e => .error e
    | .ok (v, pos1, s1) =>
      match skipWs pos1 s1 with
      | (_, []) => .ok v
      | (pos2, _ :: _) => .error (.parse .unexpectedTrailing pos2)

/-! ### Serializer (`json_serializer.hpp`)

The serializer carries a `pretty` flag, an indent width (2 from `to_string`)
and the current depth; output is a byte list. -/

/-- Decimal digit bytes of a natural number, most significant first (the
rendering of `operator<<` on an unsigned decimal). -/
def natToDigits (n : Nat) : List Nat :=
  if h : n < 10 then [48 + n]
  else natToDigits (n / 10) ++ [48 + n % 10]
decreasing_by exact Nat.div_lt_self (by omega) (by omega)

/-- Decimal rendering of an `int64_t` by `operator<<`: optional `-` then the
digits of the absolute value. -/
def serInt (i : Int) : List Nat :=
  if i < 0 then 45 :: natToDigits i.natAbs else natToDigits i.toNat

/-- Multiplicity of 2 in a natural number (used to model the shortest exact
decimal rendering of a dyadic rational). -/
def countTwo (n : Nat) : Nat :=
  if h : n % 2 = 0 ∧ 2 ≤ n then countTwo (n / 2) + 1 else 0
decreasing_by exact Nat.div_lt_self (by omega) (by omega)

/-- Multiplicity of 5 in a natural number. -/
def countFive (n : Nat) : Nat :=
  if h : n % 5 = 0 ∧ 5 ≤ n then countFive (n / 5) + 1 else 0
decreasing_by exact Nat.div_lt_self (by omega) (by omega)

/-- Digit run left-padded with `'0'` to a given width (fractional digits). -/
def padZeros (width : Nat) (ds : List Nat) : List Nat :=
  List.replicate (width - ds.length) 48 ++ ds

/-- Model of `oss << std::setprecision(17) << num` for a finite double that is
not rendered through the integer branch: the exact decimal expansion
`sign integer-part . fraction` (every finite double has one; 17 significant
digits of the default format round-trip exactly, which the exact expansion
realises; a `.0` fraction is emitted when the value is integral, where the
default format would use scientific notation). -/
def serDecimal (q : ℚ) : List Nat :=
  let sign : List Nat := if q < 0 then [45] else []
  let n := q.num.natAbs
  let d := max (countTwo q.den) (countFive q.den)
  if d = 0 then sign ++ natToDigits n ++ [46, 48]
  else
    let scaled := n * 10 ^ d / q.den
    sign ++ natToDigits (scaled / 10 ^ d) ++ [46] ++ padZeros d (natToDigits (scaled % 10 ^ d))

/-- `serializer::serialize_number(double)`: when the value equals its own
`int64_t` truncation and lies in `int64_t` range, stream it as a plain decimal
integer; otherwise with 17 significant digits.  (The C++ range test compares
against `(double)INT64_MAX`, which rounds up to `2^63`; a payload of exactly
`2^63` makes the guarding cast undefined behaviour and is modelled as taking
the decimal branch.) -/
def serialize_number (q : ℚ) : List Nat :=
  if q.den = 1 ∧ -(2 ^ 63) ≤ q.num ∧ q.num ≤ 2 ^ 63 - 1 then serInt q.num
  else serDecimal q

/-- Lower-case hex digit byte (`std::hex` with `std::setfill('0')`). -/
def hexLower (n : Nat) : Nat := if n < 10 then 48 + n else 87 + n

/-- Per-byte output of `serialize_string`'s loop: the seven named escapes,
`\u00XX` for other control bytes, everything else verbatim. -/
def escByte (b : Nat) : List Nat :=
  if b = 34 then [92, 34]
  else if b = 92 then [92, 92]
  else if b = 8 then [92, 98]
  else if b = 12 then [92, 102]
  else if b = 10 then [92, 110]
  else if b = 13 then [92, 114]
  else if b = 9 then [92, 116]
  else if b < 32 then [92, 117, 48, 48, hexLower (b / 16), hexLower (b % 16)]
  else [b]

/-- `serializer::serialize_string`: quote, escaped bytes, quote. -/
def serialize_string (s : List Nat) : List Nat :=
  34 :: s.flatMap escByte ++ [34]

/-- `write_newline`: a newline in pretty mode only. -/
def nlBytes (pretty : Bool) : List Nat := if pretty then [10] else []

/-- `write_indent`: `current_indent_ * indent_size_` spaces in pretty mode. -/
def indentBytes (pretty : Bool) (isize depth : Nat) : List Nat :=
  if pretty then List.replicate (depth * isize) 32 else []

/-- `write_space`: the single space after `':'` in pretty mode. -/
def spBytes (pretty : Bool) : List Nat := if pretty then [32] else []

mutual

/-- `serializer::serialize_value`: dispatches on `val.type()`.  Because
`type()` swaps the numeric tags (see `JVal.type`), an INTEGER-tagged value
takes the `value_type::number` case — `serialize_number(val.as_number())`, the
widened payload — and a NUMBER-tagged value takes the `value_type::integer`
case — `oss << val.as_integer()`, the payload truncated toward zero. -/
def serialize_value (pretty : Bool) (isize depth : Nat) : JVal → List Nat
  | .null => [110, 117, 108, 108]
  | .boolean b => if b then [116, 114, 117, 101] else [102, 97, 108, 115, 101]
  | .integer i => serialize_number (i : ℚ)
  | .number q => serInt (ratTrunc q)
  | .string s => serialize_string s
  | .array xs => serialize_array pretty isize depth xs
  | .object ms => serialize_object pretty isize depth ms

/-- `serializer::serialize_array`: `[]` when empty; otherwise newline+indent
before each element (pretty), elements separated by `,`, and newline+indent
before the closing `]`. -/
def serialize_array (pretty : Bool) (isize depth : Nat) : List JVal → List Nat
  | [] => [91, 93]
  | x :: rest =>
    91 :: (nlBytes pretty ++ indentBytes pretty isize (depth + 1) ++
      serialize_value pretty isize (depth + 1) x ++
      serArrItems pretty isize (depth + 1) rest ++
      nlBytes pretty ++ indentBytes pretty isize depth ++ [93])

/-- The non-first elements of an array: `,` (+ newline + indent) + element. -/
def serArrItems (pretty : Bool) (isize depth : Nat) : List JVal → List Nat
  | [] => []
  | x :: rest =>
    44 :: (nlBytes pretty ++ indentBytes pretty isize depth ++
      serialize_value pretty isize depth x ++ serArrItems pretty isize depth rest)

/-- `serializer::serialize_object`: `{}` when empty; otherwise members in the
map's (sorted) iteration order, each as key `:` (+ space in pretty) value. -/
def serialize_object (pretty : Bool) (isize depth : Nat) :
    List (List Nat × JVal) → List Nat
  | [] => [123, 125]
  | (k, v) :: rest =>
    123 :: (nlBytes pretty ++ indentBytes pretty isize (depth + 1) ++
      serialize_string k ++ [58] ++ spBytes pretty ++
      serialize_value pretty isize (depth + 1) v ++
      serObjItems pretty isize (depth + 1) rest ++
      nlBytes pretty ++ indentBytes pretty isize depth ++ [125])

/-- The non-first members of an object. -/
def serObjItems (pretty : Bool) (isize depth : Nat) :
    List (List Nat × JVal) → List Nat
  | [] => []
  | (k, v) :: rest =>
    44 :: (nlBytes pretty ++ indentBytes pretty isize depth ++
      serialize_string k ++ [58] ++ spBytes pretty ++
      serialize_value pretty isize depth v ++ serObjItems pretty isize depth rest)

end

/-- `jsonpp::to_string(val, pretty)`: a serializer with the default indent
width 2 and depth 0. -/
def to_string (v : JVal) (pretty : Bool) : List Nat :=
  serialize_value pretty 2 0 v

/-! ### Model-side predicates used by the theorems -/

/-- Whether the remaining input starts with a non-whitespace byte (or ended). -/
def headNotWs : List Nat → Bool
  | [] => true
  | b :: _ => !isWs b

/-- All bytes are whitespace. -/
def allWs : List Nat → Bool
  | [] => true
  | b :: rest => isWs b && allWs rest

/-- The continuations a serialized value is followed by inside a rendering:
nothing, a separator `,`, a closing bracket or brace, or a pretty-mode
newline.  None of these bytes can extend a number token. -/
def sepOK : List Nat → Bool
  | [] => true
  | b :: _ => b == 44 || b == 93 || b == 125 || b == 10

/-- The `int64_t` range. -/
def intInRange (i : Int) : Bool :=
  decide (-(2 ^ 63) ≤ i) && decide (i ≤ 2 ^ 63 - 1)

/-- The key precedes (strictly, in `std::less<>` order) the first key of the
member list, if any. -/
def keyLtHead (k : List Nat) : List (List Nat × JVal) → Bool
  | [] => true
  | (k2, _) :: _ => ltB k k2

mutual

/-- The value is in the image of the C++ value model: every `integer` payload
is an `int64_t`, every `number` payload truncates into `int64_t` range (so the
serializer's `static_cast<int64_t>` guard is defined), and every object's keys
are strictly ascending (the invariant `std::map` maintains by construction). -/
def wf : JVal → Bool
  | .null => true
  | .boolean _ => true
  | .integer i => intInRange i
  | .number q => intInRange (ratTrunc q)
  | .string _ => true
  | .array xs => wfList xs
  | .object ms => wfObj ms

/-- `wf` for every element. -/
def wfList : List JVal → Bool
  | [] => true
  | x :: rest => wf x && wfList rest

/-- `wf` for every member value, with strictly ascending keys. -/
def wfObj : List (List Nat × JVal) → Bool
  | [] => true
  | (k, v) :: rest => wf v && keyLtHead k rest && wfObj rest

end

mutual

/-- Every object anywhere in the value has strictly ascending keys — the
`std::map` iteration-order invariant, with no numeric-range requirements. -/
def sortedV : JVal → Bool
  | .array xs => sortedVList xs
  | .object ms => sortedVObj ms
  | _ => true

/-- `sortedV` for every element. -/
def sortedVList : List JVal → Bool
  | [] => true
  | x :: rest => sortedV x && sortedVList rest

/-- `sortedV` for every member value, with strictly ascending keys. -/
def sortedVObj : List (List Nat × JVal) → Bool
  | [] => true
  | (k, v) :: rest => sortedV v && keyLtHead k rest && sortedVObj rest

end

mutual

/-- The value obtained by one render/parse cycle: because the serializer
renders every `number`-tagged leaf through `oss << as_integer()` (the
numeric-tag swap in `value::type()`), each such leaf re-parses as the
`integer`-tagged truncation of its payload; everything else is unchanged. -/
def normalize : JVal → JVal
  | .null => .null
  | .boolean b => .boolean b
  | .integer i => .integer i
  | .number q => .integer (ratTrunc q)
  | .string s => .string s
  | .array xs => .array (normalizeList xs)
  | .object ms => .object (normalizeObj ms)

/-- `normalize` element-wise. -/
def normalizeList : List JVal → List JVal
  | [] => []
  | x :: rest => normalize x :: normalizeList rest

/-- `normalize` member-wise. -/
def normalizeObj : List (List Nat × JVal) → List (List Nat × JVal)
  | [] => []
  | (k, v) :: rest => (k, normalize v) :: normalizeObj rest

end

mutual

/-- Fuel sufficient for the parser to consume the rendering of a value: one
unit per `parse_value` entry and one per element-loop iteration. -/
def fv : JVal → Nat
  | .array xs => 1 + fvList xs
  | .object ms => 1 + fvObj ms
  | _ => 1

/-- Fuel for an array's element loop. -/
def fvList : List JVal → Nat
  | [] => 0
  | x :: rest => 1 + fv x + fvList rest

/-- Fuel for an object's member loop. -/
def fvObj : List (List Nat × JVal) → Nat
  | [] => 0
  | (_, v) :: rest => 1 + fv v + fvObj rest

end

/-- Whether the remaining input starts with a non-digit byte (or ended). -/
def headNotDigit : List Nat → Bool
  | [] => true
  | b :: _ => !isDigit b

/-- Strictly ascending keys of a member list — the invariant every
`object_type` (`std::map`) holds by construction. -/
def keysSorted : List (List Nat × JVal) → Bool
  | [] => true
  | (k, _) :: rest => keyLtHead k rest && keysSorted rest

/-! ### Lemmas: whitespace, digits, ordered maps -/

theorem skipWs_nil (pos : Nat) : skipWs pos [] = (pos, []) := rfl

theorem skipWs_cons_not (pos : Nat) {b : Nat} (l : List Nat) (h : isWs b = false) :
    skipWs pos (b :: l) = (pos, b :: l) := by
  simp [skipWs, h]

theorem skipWs_stop (pos : Nat) {l : List Nat} (h : headNotWs l = true) :
    skipWs pos l = (pos, l) := by
  cases l with
  | nil => rfl
  | cons b t => simp [headNotWs] at h; exact skipWs_cons_not pos t (by simp [h])

theorem skipWs_append (pos : Nat) {w l : List Nat} (hw : allWs w = true)
    (hl : headNotWs l = true) : skipWs pos (w ++ l) = (pos + w.length, l) := by
  induction w generalizing pos with
  | nil => simpa using skipWs_stop pos hl
  | cons b t ih =>
    simp only [allWs, Bool.and_eq_true] at hw
    simp only [List.cons_append, skipWs, hw.1, if_true]
    rw [show (t.append l) = t ++ l from rfl, ih (pos + 1) hw.2]
    simp only [List.length_cons]
    exact congrArg (·, l) (by omega)

theorem natToDigits_all (n : Nat) : ∀ b ∈ natToDigits n, isDigit b = true := by
  induction n using Nat.strong_induction_on with
  | _ n ih =>
    intro b hb
    rw [natToDigits] at hb
    split at hb
    · next h =>
      simp only [List.mem_singleton] at hb
      subst hb
      simp only [isDigit, Bool.and_eq_true, decide_eq_true_eq]
      omega
    · next h =>
      simp only [List.mem_append, List.mem_singleton] at hb
      rcases hb with hb | hb
      · exact ih (n / 10) (Nat.div_lt_self (by omega) (by omega)) b hb
      · subst hb
        simp only [isDigit, Bool.and_eq_true, decide_eq_true_eq]
        omega

theorem natToDigits_ne_nil (n : Nat) : natToDigits n ≠ [] := by
  rw [natToDigits]
  split <;> simp

theorem natToDigits_head_pos {n : Nat} (hn : 1 ≤ n) :
    ∃ b t, natToDigits n = b :: t ∧ isDigit b = true ∧ b ≠ 48 := by
  induction n using Nat.strong_induction_on with
  | _ n ih =>
    rw [natToDigits]
    split
    · next h =>
      refine ⟨48 + n, [], rfl, ?_, ?_⟩
      · simp only [isDigit, Bool.and_eq_true, decide_eq_true_eq]
        omega
      · omega
    · next h =>
      obtain ⟨b, t, hbt, hd, hb⟩ :=
        ih (n / 10) (Nat.div_lt_self (by omega) (by omega)) (by omega)
      exact ⟨b, t ++ [48 + n % 10], by rw [hbt]; rfl, hd, hb⟩

theorem digitsToNat_from (acc : Nat) (ds : List Nat) :
    ds.foldl (fun acc d => acc * 10 + (d - 48)) acc =
      acc * 10 ^ ds.length + digitsToNat ds := by
  induction ds generalizing acc with
  | nil => simp [digitsToNat]
  | cons d t ih =>
    simp only [digitsToNat, List.foldl_cons, List.length_cons]
    rw [ih (acc * 10 + (d - 48)), ih (0 * 10 + (d - 48))]
    ring

theorem digitsToNat_natToDigits (n : Nat) : digitsToNat (natToDigits n) = n := by
  induction n using Nat.strong_induction_on with
  | _ n ih =>
    rw [natToDigits]
    split
    · next h => simp [digitsToNat]
    · next h =>
      have hrec := ih (n / 10) (Nat.div_lt_self (by omega) (by omega))
      simp only [digitsToNat, List.foldl_append, List.foldl_cons, List.foldl_nil] at hrec ⊢
      rw [hrec]
      omega

theorem digitsToNat_pad (k : Nat) (ds : List Nat) :
    digitsToNat (List.replicate k 48 ++ ds) = digitsToNat ds := by
  induction k with
  | zero => simp
  | succ k ih => simpa [digitsToNat, List.replicate_succ] using ih

theorem takeDigits_spec (pos : Nat) {ds l : List Nat}
    (hd : ∀ b ∈ ds, isDigit b = true) (hl : headNotDigit l = true) :
    takeDigits pos (ds ++ l) = (ds, pos + ds.length, l) := by
  induction ds generalizing pos with
  | nil =>
    cases l with
    | nil => simp [takeDigits]
    | cons b t =>
      simp only [headNotDigit, Bool.not_eq_true'] at hl
      simp [takeDigits, hl]
  | cons b t ih =>
    have hb : isDigit b = true := hd b (by simp)
    simp only [List.cons_append, takeDigits, hb, if_true]
    rw [show (t.append l) = t ++ l from rfl, ih (pos + 1) (fun x hx => hd x (by simp [hx]))]
    simp only [List.length_cons]
    exact congrArg (fun p => (b :: t, p, l)) (by omega)

theorem ltB_irrefl (a : List Nat) : ltB a a = false := by
  induction a with
  | nil => rfl
  | cons b t ih => simp [ltB, ih]

theorem ltB_asymm : ∀ {a b : List Nat}, ltB a b = true → ltB b a = false
  | [], [], h => by simp [ltB] at h
  | [], _ :: _, _ => rfl
  | _ :: _, [], h => by simp [ltB] at h
  | x :: xs, y :: ys, h => by
    simp only [ltB] at h ⊢
    rcases Nat.lt_trichotomy x y with hxy | hxy | hxy
    · simp [hxy, Nat.lt_asymm hxy]
    · subst hxy
      simp only [lt_irrefl, if_false] at h ⊢
      exact ltB_asymm h
    · simp [hxy, Nat.lt_asymm hxy] at h

theorem ltB_ne {a b : List Nat} (h : ltB a b = true) : a ≠ b := by
  intro he
  subst he
  rw [ltB_irrefl] at h
  exact Bool.false_ne_true h

theorem ltB_trans : ∀ {a b c : List Nat}, ltB a b = true → ltB b c = true → ltB a c = true
  | [], _, _ :: _, _, _ => rfl
  | [], [], [], h1, _ => by simp [ltB] at h1
  | [], _ :: _, [], _, h2 => by simp [ltB] at h2
  | _ :: _, [], _, h1, _ => by simp [ltB] at h1
  | _ :: _, _ :: _, [], _, h2 => by simp [ltB] at h2
  | x :: xs, y :: ys, z :: zs, h1, h2 => by
    simp only [ltB] at h1 h2 ⊢
    rcases Nat.lt_trichotomy x y with hxy | hxy | hxy
    · rcases Nat.lt_trichotomy y z with hyz | hyz | hyz
      · simp [Nat.lt_trans hxy hyz]
      · subst hyz; simp [hxy]
      · simp [hyz, Nat.lt_asymm hyz] at h2
    · subst hxy
      simp only [lt_irrefl, if_false] at h1
      rcases Nat.lt_trichotomy x z with hyz | hyz | hyz
      · simp [hyz]
      · subst hyz
        simp only [lt_irrefl, if_false] at h2 ⊢
        exact ltB_trans h1 h2
      · simp [hyz, Nat.lt_asymm hyz] at h2
    · simp [hxy, Nat.lt_asymm hxy] at h1

theorem mapEmplace_append {m : List (List Nat × JVal)} {k : List Nat} (v : JVal)
    (h : ∀ p ∈ m, ltB p.1 k = true) : mapEmplace m k v = m ++ [(k, v)] := by
  induction m with
  | nil => rfl
  | cons p t ih =>
    obtain ⟨k0, v0⟩ := p
    have hk0 : ltB k0 k = true := h (k0, v0) (by simp)
    have hne : k ≠ k0 := fun he => ltB_ne hk0 he.symm
    simp only [mapEmplace, ltB_asymm hk0, Bool.false_eq_true, if_false, if_neg hne]
    rw [ih (fun p hp => h p (by simp [hp]))]
    simp

theorem keysSorted_find {k0 : List Nat} :
    ∀ {t : List (List Nat × JVal)}, keyLtHead k0 t = true → keysSorted t = true →
      ∀ {k : List Nat}, (mapFind t k).isSome = true → ltB k0 k = true
  | [], _, _, k, h => by simp [mapFind] at h
  | (k1, v1) :: u, hlt, hs, k, h => by
    simp only [keyLtHead] at hlt
    simp only [keysSorted, Bool.and_eq_true] at hs
    by_cases he : k1 = k
    · exact he ▸ hlt
    · simp only [mapFind, if_neg he] at h
      exact @keysSorted_find k0 u (by
          cases u with
          | nil => rfl
          | cons q r =>
            obtain ⟨k2, v2⟩ := q
            simp only [keyLtHead] at hs ⊢
            exact ltB_trans hlt hs.1) hs.2 k h

theorem mapEmplace_existing {m : List (List Nat × JVal)} {k : List Nat} (v : JVal)
    (hs : keysSorted m = true) (h : (mapFind m k).isSome = true) :
    mapEmplace m k v = m := by
  induction m with
  | nil => simp [mapFind] at h
  | cons p t ih =>
    obtain ⟨k0, v0⟩ := p
    simp only [keysSorted, Bool.and_eq_true] at hs
    by_cases he : k0 = k
    · subst he
      have h1 : ltB k0 k0 = false := ltB_irrefl k0
      simp [mapEmplace, h1]
    · simp only [mapFind, if_neg he] at h
      have hgt : ltB k0 k = true := keysSorted_find hs.1 hs.2 h
      have hne : k ≠ k0 := fun hek => ltB_ne hgt hek.symm
      simp only [mapEmplace, ltB_asymm hgt, Bool.false_eq_true, if_false, if_neg hne]
      rw [ih hs.2 h]

/-! ### Lemmas: number tokens -/

theorem intInRange_iff {i : Int} :
    intInRange i = true ↔ -(2 ^ 63) ≤ i ∧ i ≤ 2 ^ 63 - 1 := by
  simp [intInRange]

theorem sepOK_headNotDigit {s : List Nat} (h : sepOK s = true) :
    headNotDigit s = true := by
  cases s with
  | nil => rfl
  | cons b t =>
    simp only [sepOK, Bool.or_eq_true, beq_iff_eq] at h
    simp only [headNotDigit, Bool.not_eq_true', isDigit,
      Bool.and_eq_true, decide_eq_true_eq, Bool.and_eq_false_iff,
      decide_eq_false_iff_not]
    omega

theorem fracPart_sep (pos : Nat) {s : List Nat} (h : sepOK s = true) :
    fracPart pos s = .ok (none, pos, s) := by
  cases s with
  | nil => rfl
  | cons b t =>
    simp only [sepOK, Bool.or_eq_true, beq_iff_eq] at h
    unfold fracPart
    split
    · next heq => rcases heq with ⟨hb, ht⟩; omega
    · rfl

theorem expPart_sep (pos : Nat) {s : List Nat} (h : sepOK s = true) :
    expPart pos s = .ok (none, pos, s) := by
  cases s with
  | nil => rfl
  | cons b t =>
    simp only [sepOK, Bool.or_eq_true, beq_iff_eq] at h
    show (if b = 101 ∨ b = 69 then _ else Except.ok (none, pos, b :: t)) = _
    rw [if_neg (by omega)]

theorem parse_number_zero (pos : Nat) {rest : List Nat} (hs : sepOK rest = true) :
    parse_number pos (48 :: rest) = .ok (.integer 0, pos + 1, rest) := by
  unfold parse_number
  simp only [isDigit]
  norm_num
  rw [fracPart_sep _ hs]
  dsimp only
  rw [expPart_sep _ hs]
  dsimp only
  norm_num [digitsToNat]

theorem parse_number_natToDigits (pos : Nat) {n : Nat} {rest : List Nat}
    (hn : 1 ≤ n) (hbound : (n : Int) ≤ 2 ^ 63 - 1) (hs : sepOK rest = true) :
    parse_number pos (natToDigits n ++ rest) =
      .ok (.integer n, pos + (natToDigits n).length, rest) := by
  obtain ⟨b, t, hbt, hd, hb48⟩ := natToDigits_head_pos hn
  have hds : ∀ x ∈ natToDigits n, isDigit x = true := natToDigits_all n
  have hb45 : ¬(b = 45) := by
    simp only [isDigit, Bool.and_eq_true, decide_eq_true_eq] at hd
    omega
  have htake : takeDigits pos (natToDigits n ++ rest) =
      (natToDigits n, pos + (natToDigits n).length, rest) :=
    takeDigits_spec pos hds (sepOK_headNotDigit hs)
  have hcons : natToDigits n ++ rest = b :: (t ++ rest) := by rw [hbt]; rfl
  rw [show parse_number pos (natToDigits n ++ rest)
      = parse_number pos (b :: (t ++ rest)) from by rw [hcons]]
  unfold parse_number
  rw [List.headD_cons, if_neg hb45]
  dsimp only
  rw [if_pos hd, if_neg hb48, ← hcons, htake]
  dsimp only
  rw [fracPart_sep _ hs]
  dsimp only
  rw [expPart_sep _ hs]
  dsimp only
  simp only [Bool.false_eq_true, if_false, ite_true, ite_false,
    digitsToNat_natToDigits, one_mul]
  rw [if_pos (by constructor <;> omega)]

theorem parse_number_neg_natToDigits (pos : Nat) {n : Nat} {rest : List Nat}
    (hn : 1 ≤ n) (hbound : (n : Int) ≤ 2 ^ 63) (hs : sepOK rest = true) :
    parse_number pos (45 :: (natToDigits n ++ rest)) =
      .ok (.integer (-(n : Int)), pos + 1 + (natToDigits n).length, rest) := by
  obtain ⟨b, t, hbt, hd, hb48⟩ := natToDigits_head_pos hn
  have hds : ∀ x ∈ natToDigits n, isDigit x = true := natToDigits_all n
  have htake : takeDigits (pos + 1) (natToDigits n ++ rest) =
      (natToDigits n, pos + 1 + (natToDigits n).length, rest) :=
    takeDigits_spec (pos + 1) hds (sepOK_headNotDigit hs)
  have hcons : natToDigits n ++ rest = b :: (t ++ rest) := by rw [hbt]; rfl
  unfold parse_number
  rw [List.headD_cons, if_pos rfl, List.tail_cons, hcons]
  dsimp only
  rw [if_pos hd, if_neg hb48, ← hcons, htake]
  dsimp only
  rw [fracPart_sep _ hs]
  dsimp only
  rw [expPart_sep _ hs]
  dsimp only
  simp only [ite_true, ite_false, digitsToNat_natToDigits, neg_mul, one_mul]
  rw [if_pos (by constructor <;> omega)]

theorem serInt_parse (pos : Nat) {i : Int} {rest : List Nat}
    (hr : intInRange i = true) (hs : sepOK rest = true) :
    parse_number pos (serInt i ++ rest) =
      .ok (.integer i, pos + (serInt i).length, rest) := by
  rw [intInRange_iff] at hr
  by_cases hneg : i < 0
  · have h1 : 1 ≤ i.natAbs := by omega
    have h2 : (i.natAbs : Int) ≤ 2 ^ 63 := by omega
    simp only [serInt, if_pos hneg, List.cons_append]
    rw [parse_number_neg_natToDigits pos h1 h2 hs]
    have : -(i.natAbs : Int) = i := by omega
    rw [this]
    simp only [List.length_cons]
    exact congrArg (fun p => (Except.ok (JVal.integer i, p, rest))) (by omega)
  · simp only [serInt, if_neg hneg]
    by_cases hz : i.toNat = 0
    · have hi0 : i = 0 := by omega
      subst hi0
      have h48 : natToDigits (Int.toNat 0) = [48] := by rw [natToDigits]; norm_num
      rw [h48]
      simpa using parse_number_zero pos hs
    · have h1 : 1 ≤ i.toNat := by omega
      have h2 : (i.toNat : Int) ≤ 2 ^ 63 - 1 := by omega
      rw [parse_number_natToDigits pos h1 h2 hs]
      have : ((i.toNat : Nat) : Int) = i := by omega
      rw [this]

/-! ### Lemmas: string tokens -/

theorem hexVal_hexLower {n : Nat} (h : n < 16) : hexVal (hexLower n) = some n := by
  by_cases h10 : n < 10
  · rw [hexLower, if_pos h10, hexVal, if_pos (by omega)]
    congr 1
    omega
  · rw [hexLower, if_neg h10, hexVal, if_neg (by omega), if_pos (by omega)]
    congr 1
    omega

theorem strLoop_quote (pos : Nat) (acc rest : List Nat) :
    strLoop pos (34 :: rest) acc = .ok (acc, pos + 1, rest) := by
  rw [strLoop.eq_def]
  norm_num

theorem strLoop_ser : ∀ (s : List Nat) (pos : Nat) (acc rest : List Nat),
    strLoop pos (s.flatMap escByte ++ 34 :: rest) acc =
      .ok (acc ++ s, pos + (s.flatMap escByte).length + 1, rest)
  | [], pos, acc, rest => by simpa using strLoop_quote pos acc rest
  | b :: t, pos, acc, rest => by
    have ih := strLoop_ser t
    simp only [List.flatMap_cons, List.append_assoc]
    by_cases h34 : b = 34
    · subst h34
      simp only [escByte, if_pos rfl, List.cons_append, List.nil_append]
      rw [strLoop.eq_def]
      norm_num
      rw [ih]
      simp [List.append_assoc]
      omega
    · by_cases h92 : b = 92
      · subst h92
        simp only [escByte]
        norm_num [List.cons_append, List.nil_append]
        rw [strLoop.eq_def]
        norm_num
        rw [ih]
        simp [List.append_assoc]
        omega
      · by_cases h8 : b = 8
        · subst h8
          simp only [escByte]
          norm_num [List.cons_append, List.nil_append]
          rw [strLoop.eq_def]
          norm_num
          rw [ih]
          simp [List.append_assoc]
          omega
        · by_cases h12 : b = 12
          · subst h12
            simp only [escByte]
            norm_num [List.cons_append, List.nil_append]
            rw [strLoop.eq_def]
            norm_num
            rw [ih]
            simp [List.append_assoc]
            omega
          · by_cases h10 : b = 10
            · subst h10
              simp only [escByte]
              norm_num [List.cons_append, List.nil_append]
              rw [strLoop.eq_def]
              norm_num
              rw [ih]
              simp [List.append_assoc]
              omega
            · by_cases h13 : b = 13
              · subst h13
                simp only [escByte]
                norm_num [List.cons_append, List.nil_append]
                rw [strLoop.eq_def]
                norm_num
                rw [ih]
                simp [List.append_assoc]
                omega
              · by_cases h9 : b = 9
                · subst h9
                  simp only [escByte]
                  norm_num [List.cons_append, List.nil_append]
                  rw [strLoop.eq_def]
                  norm_num
                  rw [ih]
                  simp [List.append_assoc]
                  omega
                · by_cases hctl : b < 32
                  · rw [escByte, if_neg h34, if_neg h92, if_neg h8, if_neg h12,
                      if_neg h10, if_neg h13, if_neg h9, if_pos hctl]
                    simp only [List.cons_append, List.nil_append]
                    rw [strLoop.eq_def]
                    norm_num
                    rw [show hexVal 48 = some 0 from rfl,
                      hexVal_hexLower (show b / 16 < 16 by omega),
                      hexVal_hexLower (show b % 16 < 16 by omega)]
                    dsimp only
                    rw [show ((0 * 16 + 0) * 16 + b / 16) * 16 + b % 16 = b from by omega]
                    rw [show utf8Encode b = [b] from by rw [utf8Encode, if_pos (by omega)]]
                    rw [ih]
                    simp [List.append_assoc]
                    omega
                  · rw [escByte, if_neg h34, if_neg h92, if_neg h8, if_neg h12,
                      if_neg h10, if_neg h13, if_neg h9, if_neg hctl]
                    simp only [List.cons_append, List.nil_append]
                    rw [strLoop.eq_def]
                    dsimp only
                    rw [if_neg h34, if_neg h92, if_neg (show ¬(b < 32) from hctl)]
                    rw [ih]
                    simp [List.append_assoc]
                    omega

theorem parse_string_raw_ser (pos : Nat) (s rest : List Nat) :
    parse_string_raw pos (serialize_string s ++ rest) =
      .ok (s, pos + (serialize_string s).length, rest) := by
  have h : serialize_string s ++ rest = 34 :: (s.flatMap escByte ++ 34 :: rest) := by
    simp [serialize_string]
  rw [h, parse_string_raw]
  rw [strLoop_ser]
  simp only [List.nil_append, serialize_string, List.length_cons, List.length_append,
    List.length_singleton, List.length_nil]
  exact congrArg (fun p => Except.ok (s, p, rest)) (by omega)

/-! ### Lemmas: shapes of serialized output -/

theorem isDigit_iff {b : Nat} : isDigit b = true ↔ 48 ≤ b ∧ b ≤ 57 := by
  simp [isDigit]

theorem isWs_iff {b : Nat} :
    isWs b = true ↔ b = 32 ∨ b = 9 ∨ b = 10 ∨ b = 11 ∨ b = 12 ∨ b = 13 := by
  simp [isWs]
  tauto

theorem allWs_append {a b : List Nat} (ha : allWs a = true) (hb : allWs b = true) :
    allWs (a ++ b) = true := by
  induction a with
  | nil => simpa using hb
  | cons x t ih =>
    simp only [allWs, Bool.and_eq_true] at ha ⊢
    exact ⟨ha.1, ih ha.2⟩

theorem allWs_nl (pretty : Bool) : allWs (nlBytes pretty) = true := by
  cases pretty <;> simp [nlBytes, allWs, isWs]

theorem allWs_sp (pretty : Bool) : allWs (spBytes pretty) = true := by
  cases pretty <;> simp [spBytes, allWs, isWs]

theorem allWs_replicate (k : Nat) : allWs (List.replicate k 32) = true := by
  induction k with
  | zero => rfl
  | succ k ih => simpa [List.replicate_succ, allWs, isWs] using ih

theorem allWs_indent (pretty : Bool) (isize depth : Nat) :
    allWs (indentBytes pretty isize depth) = true := by
  cases pretty <;> simp [indentBytes, allWs_replicate, allWs]

/-- The first byte of `serInt`. -/
theorem serInt_shape (i : Int) :
    ∃ b t, serInt i = b :: t ∧ (b = 45 ∨ isDigit b = true) := by
  unfold serInt
  split
  · exact ⟨45, natToDigits i.natAbs, rfl, .inl rfl⟩
  · cases h : natToDigits i.toNat with
    | nil => exact absurd h (natToDigits_ne_nil _)
    | cons b t => exact ⟨b, t, rfl, .inr (natToDigits_all _ b (by rw [h]; simp))⟩

/-- The first byte of `serDecimal`. -/
theorem serDecimal_shape (q : ℚ) :
    ∃ b t, serDecimal q = b :: t ∧ (b = 45 ∨ isDigit b = true) := by
  unfold serDecimal
  by_cases hq : q < 0 <;> simp only [hq, ite_true, ite_false] <;> split
  · exact ⟨45, _, rfl, .inl rfl⟩
  · exact ⟨45, _, rfl, .inl rfl⟩
  · cases h : natToDigits q.num.natAbs with
    | nil => exact absurd h (natToDigits_ne_nil _)
    | cons b t =>
      exact ⟨b, t ++ [46, 48], by simp, .inr (natToDigits_all _ b (by rw [h]; simp))⟩
  · cases h : natToDigits (q.num.natAbs * 10 ^ (max (countTwo q.den) (countFive q.den)) /
        q.den / 10 ^ (max (countTwo q.den) (countFive q.den))) with
    | nil => exact absurd h (natToDigits_ne_nil _)
    | cons b t =>
      refine ⟨b, t ++ [46] ++ padZeros (max (countTwo q.den) (countFive q.den))
        (natToDigits (q.num.natAbs * 10 ^ (max (countTwo q.den) (countFive q.den)) /
          q.den % 10 ^ (max (countTwo q.den) (countFive q.den)))), by simp,
        .inr (natToDigits_all _ b (by rw [h]; simp))⟩

/-- The first byte of `serialize_number`. -/
theorem serialize_number_shape (q : ℚ) :
    ∃ b t, serialize_number q = b :: t ∧ (b = 45 ∨ isDigit b = true) := by
  unfold serialize_number
  split
  · exact serInt_shape q.num
  · exact serDecimal_shape q

/-- `serialize_number` on a widened `int64_t` takes the integer branch. -/
theorem serialize_number_intCast {i : Int} (h : intInRange i = true) :
    serialize_number (i : ℚ) = serInt i := by
  rw [intInRange_iff] at h
  rw [serialize_number, if_pos]
  · rw [Rat.num_intCast]
  · refine ⟨Rat.den_intCast i, ?_, ?_⟩ <;> rw [Rat.num_intCast] <;> omega

/-- The first byte of any serialized value is one of the value-start bytes. -/
theorem ser_head (pretty : Bool) (isize depth : Nat) (v : JVal) :
    ∃ b t, serialize_value pretty isize depth v = b :: t ∧
      (b = 45 ∨ isDigit b = true ∨ b = 110 ∨ b = 116 ∨ b = 102 ∨ b = 34 ∨
        b = 91 ∨ b = 123) := by
  cases v with
  | null => exact ⟨110, _, rfl, by tauto⟩
  | boolean b =>
    cases b
    · exact ⟨102, _, rfl, by tauto⟩
    · exact ⟨116, _, rfl, by tauto⟩
  | integer i =>
    obtain ⟨b, t, hbt, hc⟩ := serialize_number_shape (i : ℚ)
    exact ⟨b, t, hbt, by tauto⟩
  | number q =>
    obtain ⟨b, t, hbt, hc⟩ := serInt_shape (ratTrunc q)
    exact ⟨b, t, hbt, by tauto⟩
  | string s => exact ⟨34, _, rfl, by tauto⟩
  | array xs =>
    cases xs with
    | nil => exact ⟨91, _, rfl, by tauto⟩
    | cons x t => exact ⟨91, _, rfl, by tauto⟩
  | object ms =>
    cases ms with
    | nil => exact ⟨123, _, rfl, by tauto⟩
    | cons m t =>
      obtain ⟨k, v⟩ := m
      exact ⟨123, _, rfl, by tauto⟩

/-- Value-start bytes are not whitespace, not `]`, not `}`, not digits' enemies. -/
theorem startByte_facts {b : Nat}
    (h : b = 45 ∨ isDigit b = true ∨ b = 110 ∨ b = 116 ∨ b = 102 ∨ b = 34 ∨
      b = 91 ∨ b = 123) :
    isWs b = false ∧ ¬(b = 93) ∧ ¬(b = 125) := by
  rw [isDigit_iff] at h
  refine ⟨?_, ?_, ?_⟩
  · rw [Bool.eq_false_iff]
    intro hw
    rw [isWs_iff] at hw
    omega
  · omega
  · omega

theorem fv_pos (v : JVal) : 1 ≤ fv v := by
  cases v <;> simp [fv]

theorem skipWs_nl_ind (pos : Nat) (pretty : Bool) (isize depth : Nat) {l : List Nat}
    (hl : headNotWs l = true) :
    skipWs pos (nlBytes pretty ++ (indentBytes pretty isize depth ++ l)) =
      (pos + (nlBytes pretty).length + (indentBytes pretty isize depth).length, l) := by
  rw [← List.append_assoc,
    skipWs_append pos (allWs_append (allWs_nl pretty) (allWs_indent pretty isize depth)) hl]
  simp only [List.length_append]
  exact congrArg (·, l) (by omega)

theorem sepOK_arrTail (pretty : Bool) (isize d1 d2 : Nat) (xs : List JVal)
    (rest : List Nat) :
    sepOK (serArrItems pretty isize d1 xs ++
      (nlBytes pretty ++ (indentBytes pretty isize d2 ++ 93 :: rest))) = true := by
  cases xs with
  | cons y t => simp [serArrItems, sepOK]
  | nil => cases pretty <;> simp [serArrItems, nlBytes, indentBytes, sepOK]

theorem sepOK_objTail (pretty : Bool) (isize d1 d2 : Nat)
    (ms : List (List Nat × JVal)) (rest : List Nat) :
    sepOK (serObjItems pretty isize d1 ms ++
      (nlBytes pretty ++ (indentBytes pretty isize d2 ++ 125 :: rest))) = true := by
  cases ms with
  | cons m t =>
    obtain ⟨k, v⟩ := m
    simp [serObjItems, sepOK]
  | nil => cases pretty <;> simp [serObjItems, nlBytes, indentBytes, sepOK]

/-! ### The master round-trip theorem

Parsing the rendering of a well-formed value — in either mode, at any depth,
with any separator-led continuation — succeeds, consumes exactly the
rendering, and yields `normalize` of the value. -/

mutual

theorem parse_value_ser (f : Nat) (v : JVal) (hw : wf v = true) (hf : fv v ≤ f)
    (pretty : Bool) (isize depth pos : Nat) (rest : List Nat) (hr : sepOK rest = true) :
    ∃ pos', parse_value f pos (serialize_value pretty isize depth v ++ rest) =
      .ok (normalize v, pos', rest) := by
  obtain ⟨g, rfl⟩ : ∃ g, f = g + 1 := ⟨f - 1, by have := fv_pos v; omega⟩
  cases v with
  | null =>
    refine ⟨pos + 4, ?_⟩
    rw [parse_value.eq_def]
    dsimp only
    simp only [serialize_value, List.cons_append, List.nil_append]
    rw [skipWs_cons_not pos _ (by decide)]
    dsimp only
    norm_num
    simp [parse_null, normalize]
  | boolean b =>
    cases b
    · refine ⟨pos + 5, ?_⟩
      rw [parse_value.eq_def]
      dsimp only
      simp only [serialize_value, Bool.false_eq_true, if_false, List.cons_append,
        List.nil_append]
      rw [skipWs_cons_not pos _ (by decide)]
      dsimp only
      norm_num
      simp [parse_boolean, normalize]
    · refine ⟨pos + 4, ?_⟩
      rw [parse_value.eq_def]
      dsimp only
      simp only [serialize_value, if_true, List.cons_append, List.nil_append]
      rw [skipWs_cons_not pos _ (by decide)]
      dsimp only
      norm_num
      simp [parse_boolean, normalize]
  | integer i =>
    have hrange : intInRange i = true := by simpa [wf] using hw
    obtain ⟨b, t, hbt, hc⟩ := serInt_shape i
    have hb : b = 45 ∨ (48 ≤ b ∧ b ≤ 57) := by
      rcases hc with h | h
      · exact .inl h
      · exact .inr (isDigit_iff.mp h)
    refine ⟨pos + (serInt i).length, ?_⟩
    rw [parse_value.eq_def]
    dsimp only
    rw [show serialize_value pretty isize depth (.integer i) = serInt i from by
      rw [serialize_value, serialize_number_intCast hrange]]
    have hstream : serInt i ++ rest = b :: (t ++ rest) := by rw [hbt]; rfl
    rw [hstream]
    rw [skipWs_cons_not pos _ (by
      rw [Bool.eq_false_iff]
      intro hws
      rw [isWs_iff] at hws
      omega)]
    dsimp only
    rw [if_neg (by omega), if_neg (by omega), if_neg (by omega), if_neg (by omega),
      if_neg (by omega), if_pos hc]
    rw [← hstream, serInt_parse pos hrange hr]
    simp [normalize]
  | number q =>
    have hrange : intInRange (ratTrunc q) = true := by simpa [wf] using hw
    obtain ⟨b, t, hbt, hc⟩ := serInt_shape (ratTrunc q)
    have hb : b = 45 ∨ (48 ≤ b ∧ b ≤ 57) := by
      rcases hc with h | h
      · exact .inl h
      · exact .inr (isDigit_iff.mp h)
    refine ⟨pos + (serInt (ratTrunc q)).length, ?_⟩
    rw [parse_value.eq_def]
    dsimp only
    rw [show serialize_value pretty isize depth (.number q) = serInt (ratTrunc q) from by
      rw [serialize_value]]
    have hstream : serInt (ratTrunc q) ++ rest = b :: (t ++ rest) := by rw [hbt]; rfl
    rw [hstream]
    rw [skipWs_cons_not pos _ (by
      rw [Bool.eq_false_iff]
      intro hws
      rw [isWs_iff] at hws
      omega)]
    dsimp only
    rw [if_neg (by omega), if_neg (by omega), if_neg (by omega), if_neg (by omega),
      if_neg (by omega), if_pos hc]
    rw [← hstream, serInt_parse pos hrange hr]
    simp [normalize]
  | string s =>
    refine ⟨pos + (serialize_string s).length, ?_⟩
    rw [parse_value.eq_def]
    dsimp only
    rw [show serialize_value pretty isize depth (.string s) = serialize_string s from by
      rw [serialize_value]]
    have hstream : serialize_string s ++ rest =
        34 :: (s.flatMap escByte ++ 34 :: rest) := by simp [serialize_string]
    rw [hstream]
    rw [skipWs_cons_not pos _ (by decide)]
    dsimp only
    norm_num
    rw [← hstream, parse_string_raw_ser pos s rest]
    dsimp only
    simp [normalize]
  | array xs =>
    cases xs with
    | nil =>
      refine ⟨pos + 2, ?_⟩
      rw [parse_value.eq_def]
      dsimp only
      simp only [serialize_value, serialize_array, List.cons_append, List.nil_append]
      rw [skipWs_cons_not pos _ (by decide)]
      dsimp only
      norm_num
      rw [parse_array.eq_def]
      dsimp only
      norm_num
      rw [skipWs_cons_not (pos + 1) _ (by decide)]
      dsimp only
      norm_num [normalize, normalizeList]
    | cons x ys =>
      have hwl : wfList (x :: ys) = true := by simpa [wf] using hw
      have hfl : fvList (x :: ys) ≤ g := by
        simp only [fv] at hf
        omega
      obtain ⟨b, t, hbt, hc⟩ := ser_head pretty isize (depth + 1) x
      have hbf := startByte_facts hc
      obtain ⟨pos', hp⟩ := arrLoop_ser g x ys [] hwl hfl pretty isize (depth + 1) depth
        (pos + 1 + (nlBytes pretty).length + (indentBytes pretty isize (depth + 1)).length)
        rest hr
      refine ⟨pos', ?_⟩
      rw [parse_value.eq_def]
      dsimp only
      simp only [serialize_value, serialize_array, List.cons_append, List.append_assoc,
        List.singleton_append]
      rw [skipWs_cons_not pos _ (by decide)]
      dsimp only
      norm_num
      rw [parse_array.eq_def]
      dsimp only
      norm_num
      rw [skipWs_nl_ind (pos + 1) pretty isize (depth + 1) (by
        rw [show serialize_value pretty isize (depth + 1) x ++
            (serArrItems pretty isize (depth + 1) ys ++
              (nlBytes pretty ++ (indentBytes pretty isize depth ++ 93 :: rest)))
          = b :: (t ++ (serArrItems pretty isize (depth + 1) ys ++
              (nlBytes pretty ++ (indentBytes pretty isize depth ++ 93 :: rest))))
          from by rw [hbt]; rfl]
        simp [headNotWs, hbf.1])]
      dsimp only
      rw [if_neg (by
        rw [show serialize_value pretty isize (depth + 1) x ++
            (serArrItems pretty isize (depth + 1) ys ++
              (nlBytes pretty ++ (indentBytes pretty isize depth ++ 93 :: rest)))
          = b :: (t ++ (serArrItems pretty isize (depth + 1) ys ++
              (nlBytes pretty ++ (indentBytes pretty isize depth ++ 93 :: rest))))
          from by rw [hbt]; rfl]
        simpa using hbf.2.1)]
      rw [hp]
      simp [normalize]
  | object ms =>
    cases ms with
    | nil =>
      refine ⟨pos + 2, ?_⟩
      rw [parse_value.eq_def]
      dsimp only
      simp only [serialize_value, serialize_object, List.cons_append, List.nil_append]
      rw [skipWs_cons_not pos _ (by decide)]
      dsimp only
      norm_num
      rw [parse_object.eq_def]
      dsimp only
      norm_num
      rw [skipWs_cons_not (pos + 1) _ (by decide)]
      dsimp only
      norm_num [normalize, normalizeObj]
    | cons m ms2 =>
      obtain ⟨k, v⟩ := m
      have hwo : wfObj ((k, v) :: ms2) = true := by simpa [wf] using hw
      have hfo : fvObj ((k, v) :: ms2) ≤ g := by
        simp only [fv] at hf
        omega
      obtain ⟨pos', hp⟩ := objLoop_ser g k v ms2 [] hwo hfo (by simp) pretty isize
        (depth + 1) depth
        (pos + 1 + (nlBytes pretty).length + (indentBytes pretty isize (depth + 1)).length)
        rest hr
      refine ⟨pos', ?_⟩
      rw [parse_value.eq_def]
      dsimp only
      simp only [serialize_value, serialize_object, List.cons_append, List.append_assoc,
        List.singleton_append]
      rw [skipWs_cons_not pos _ (by decide)]
      dsimp only
      norm_num
      rw [parse_object.eq_def]
      dsimp only
      norm_num
      rw [skipWs_nl_ind (pos + 1) pretty isize (depth + 1) (by
        simp [serialize_string, headNotWs, isWs])]
      dsimp only
      rw [if_neg (by simp [serialize_string])]
      rw [hp]
      simp [normalize]
termination_by f

theorem arrLoop_ser (f : Nat) (x : JVal) (xs : List JVal) (acc : List JVal)
    (hw : wfList (x :: xs) = true) (hf : fvList (x :: xs) ≤ f)
    (pretty : Bool) (isize dIn dOut pos : Nat) (rest : List Nat) (hr : sepOK rest = true) :
    ∃ pos', arrLoop f pos
      (serialize_value pretty isize dIn x ++ (serArrItems pretty isize dIn xs ++
        (nlBytes pretty ++ (indentBytes pretty isize dOut ++ 93 :: rest)))) acc =
      .ok (.array (acc ++ normalizeList (x :: xs)), pos', rest) := by
  obtain ⟨g, rfl⟩ : ∃ g, f = g + 1 := ⟨f - 1, by
    simp only [fvList] at hf
    have := fv_pos x
    omega⟩
  simp only [wfList, Bool.and_eq_true] at hw
  have hfx : fv x ≤ g := by
    simp only [fvList] at hf
    omega
  have hsep : sepOK (serArrItems pretty isize dIn xs ++
      (nlBytes pretty ++ (indentBytes pretty isize dOut ++ 93 :: rest))) = true :=
    sepOK_arrTail pretty isize dIn dOut xs rest
  obtain ⟨pos1, hp1⟩ := parse_value_ser g x hw.1 hfx pretty isize dIn pos
    (serArrItems pretty isize dIn xs ++
      (nlBytes pretty ++ (indentBytes pretty isize dOut ++ 93 :: rest))) hsep
  rw [arrLoop.eq_def]
  dsimp only
  rw [hp1]
  dsimp only
  cases xs with
  | nil =>
    simp only [serArrItems, List.nil_append]
    rw [skipWs_nl_ind pos1 pretty isize dOut (by simp [headNotWs, isWs])]
    dsimp only
    norm_num [normalizeList]
  | cons y t =>
    simp only [serArrItems, List.cons_append, List.append_assoc]
    rw [skipWs_cons_not pos1 _ (by decide)]
    dsimp only
    norm_num
    obtain ⟨b2, t2, hbt2, hc2⟩ := ser_head pretty isize dIn y
    have hbf2 := startByte_facts hc2
    rw [skipWs_nl_ind (pos1 + 1) pretty isize dIn (by
      rw [show serialize_value pretty isize dIn y ++
          (serArrItems pretty isize dIn t ++
            (nlBytes pretty ++ (indentBytes pretty isize dOut ++ 93 :: rest)))
        = b2 :: (t2 ++ (serArrItems pretty isize dIn t ++
            (nlBytes pretty ++ (indentBytes pretty isize dOut ++ 93 :: rest))))
        from by rw [hbt2]; rfl]
      simp [headNotWs, hbf2.1])]
    rw [if_neg (by
      rw [show serialize_value pretty isize dIn y ++
          (serArrItems pretty isize dIn t ++
            (nlBytes pretty ++ (indentBytes pretty isize dOut ++ 93 :: rest)))
        = b2 :: (t2 ++ (serArrItems pretty isize dIn t ++
            (nlBytes pretty ++ (indentBytes pretty isize dOut ++ 93 :: rest))))
        from by rw [hbt2]; rfl]
      simpa using hbf2.2.1)]
    have hft : fvList (y :: t) ≤ g := by
      simp only [fvList] at hf ⊢
      omega
    obtain ⟨pos', hp'⟩ := arrLoop_ser g y t (acc ++ [normalize x]) hw.2 hft
      pretty isize dIn dOut
      (pos1 + 1 + (nlBytes pretty).length + (indentBytes pretty isize dIn).length) rest hr
    rw [hp']
    refine ⟨pos', ?_⟩
    simp [normalizeList, List.append_assoc]
termination_by f

theorem objLoop_ser (f : Nat) (k : List Nat) (v : JVal) (ms : List (List Nat × JVal))
    (acc : List (List Nat × JVal))
    (hw : wfObj ((k, v) :: ms) = true) (hf : fvObj ((k, v) :: ms) ≤ f)
    (hacc : ∀ p ∈ acc, ltB p.1 k = true)
    (pretty : Bool) (isize dIn dOut pos : Nat) (rest : List Nat) (hr : sepOK rest = true) :
    ∃ pos', objLoop f pos
      (serialize_string k ++ (58 :: (spBytes pretty ++ (serialize_value pretty isize dIn v ++
        (serObjItems pretty isize dIn ms ++ (nlBytes pretty ++
          (indentBytes pretty isize dOut ++ 125 :: rest))))))) acc =
      .ok (.object (acc ++ normalizeObj ((k, v) :: ms)), pos', rest) := by
  obtain ⟨g, rfl⟩ : ∃ g, f = g + 1 := ⟨f - 1, by
    simp only [fvObj] at hf
    have := fv_pos v
    omega⟩
  simp only [wfObj, Bool.and_eq_true] at hw
  have hfv : fv v ≤ g := by
    simp only [fvObj] at hf
    omega
  have hwv : wf v = true := hw.1.1
  have hsep : sepOK (serObjItems pretty isize dIn ms ++
      (nlBytes pretty ++ (indentBytes pretty isize dOut ++ 125 :: rest))) = true :=
    sepOK_objTail pretty isize dIn dOut ms rest
  obtain ⟨pos1, hp1⟩ := parse_value_ser g v hwv hfv pretty isize dIn
    (pos + (serialize_string k).length + 1 + (spBytes pretty).length)
    (serObjItems pretty isize dIn ms ++
      (nlBytes pretty ++ (indentBytes pretty isize dOut ++ 125 :: rest))) hsep
  rw [objLoop.eq_def]
  dsimp only
  rw [skipWs_stop pos (by simp [serialize_string, headNotWs, isWs])]
  dsimp only
  have hser : serialize_string k ++ (58 :: (spBytes pretty ++
      (serialize_value pretty isize dIn v ++ (serObjItems pretty isize dIn ms ++
        (nlBytes pretty ++ (indentBytes pretty isize dOut ++ 125 :: rest)))))) =
      34 :: (k.flatMap escByte ++ 34 :: 58 :: (spBytes pretty ++
      (serialize_value pretty isize dIn v ++ (serObjItems pretty isize dIn ms ++
        (nlBytes pretty ++ (indentBytes pretty isize dOut ++ 125 :: rest)))))) := by
    simp [serialize_string]
  rw [hser]
  dsimp only
  rw [← hser, parse_string_raw_ser pos k _]
  dsimp only
  rw [skipWs_cons_not _ _ (by decide)]
  dsimp only
  norm_num
  rw [skipWs_append _ (allWs_sp pretty) (by
    obtain ⟨b3, t3, hbt3, hc3⟩ := ser_head pretty isize dIn v
    rw [show serialize_value pretty isize dIn v ++ (serObjItems pretty isize dIn ms ++
        (nlBytes pretty ++ (indentBytes pretty isize dOut ++ 125 :: rest)))
      = b3 :: (t3 ++ (serObjItems pretty isize dIn ms ++
        (nlBytes pretty ++ (indentBytes pretty isize dOut ++ 125 :: rest))))
      from by rw [hbt3]; rfl]
    simp [headNotWs, (startByte_facts hc3).1])]
  rw [hp1]
  dsimp only
  rw [mapEmplace_append (normalize v) hacc]
  cases ms with
  | nil =>
    simp only [serObjItems, List.nil_append]
    rw [skipWs_nl_ind pos1 pretty isize dOut (by simp [headNotWs, isWs])]
    dsimp only
    norm_num [normalizeObj]
  | cons m2 t =>
    obtain ⟨k2, v2⟩ := m2
    simp only [serObjItems, List.cons_append, List.append_assoc]
    rw [skipWs_cons_not pos1 _ (by decide)]
    dsimp only
    norm_num
    rw [skipWs_nl_ind (pos1 + 1) pretty isize dIn (by
      simp [serialize_string, headNotWs, isWs])]
    rw [if_neg (by simp [serialize_string])]
    have hkk2 : ltB k k2 = true := by
      simpa [keyLtHead] using hw.1.2
    have hft : fvObj ((k2, v2) :: t) ≤ g := by
      simp only [fvObj] at hf ⊢
      omega
    obtain ⟨pos', hp'⟩ := objLoop_ser g k2 v2 t (acc ++ [(k, normalize v)]) hw.2 hft (by
        intro p hp
        rcases List.mem_append.mp hp with hmem | hmem
        · exact ltB_trans (hacc p hmem) hkk2
        · simp only [List.mem_singleton] at hmem
          subst hmem
          exact hkk2) pretty isize dIn dOut
      (pos1 + 1 + (nlBytes pretty).length + (indentBytes pretty isize dIn).length) rest hr
    rw [hp']
    refine ⟨pos', ?_⟩
    simp [normalizeObj, List.append_assoc]
termination_by f

end

mutual

theorem fv_le_serlen (pretty : Bool) (isize depth : Nat) (v : JVal) :
    fv v ≤ (serialize_value pretty isize depth v).length := by
  cases v with
  | null => simp [fv, serialize_value]
  | boolean b => cases b <;> simp [fv, serialize_value]
  | integer i =>
    obtain ⟨b, t, hbt, _⟩ := serialize_number_shape (i : ℚ)
    simp only [fv, serialize_value, hbt, List.length_cons]
    omega
  | number q =>
    obtain ⟨b, t, hbt, _⟩ := serInt_shape (ratTrunc q)
    simp only [fv, serialize_value, hbt, List.length_cons]
    omega
  | string s =>
    simp only [fv, serialize_value, serialize_string, List.length_cons,
      List.length_append, List.length_singleton]
    omega
  | array xs =>
    cases xs with
    | nil => simp [fv, fvList, serialize_value, serialize_array]
    | cons x t =>
      have h1 := fv_le_serlen pretty isize (depth + 1) x
      have h2 := fvList_le_itemsLen pretty isize (depth + 1) t
      simp only [fv, fvList, serialize_value, serialize_array, List.length_cons,
        List.length_append, List.length_singleton]
      omega
  | object ms =>
    cases ms with
    | nil => simp [fv, fvObj, serialize_value, serialize_object]
    | cons m t =>
      obtain ⟨k, v⟩ := m
      have h1 := fv_le_serlen pretty isize (depth + 1) v
      have h2 := fvObj_le_itemsLen pretty isize (depth + 1) t
      simp only [fv, fvObj, serialize_value, serialize_object, List.length_cons,
        List.length_append, List.length_singleton]
      omega

theorem fvList_le_itemsLen (pretty : Bool) (isize depth : Nat) (xs : List JVal) :
    fvList xs ≤ (serArrItems pretty isize depth xs).length := by
  cases xs with
  | nil => simp [fvList, serArrItems]
  | cons x t =>
    have h1 := fv_le_serlen pretty isize depth x
    have h2 := fvList_le_itemsLen pretty isize depth t
    simp only [fvList, serArrItems, List.length_cons, List.length_append]
    omega

theorem fvObj_le_itemsLen (pretty : Bool) (isize depth : Nat)
    (ms : List (List Nat × JVal)) :
    fvObj ms ≤ (serObjItems pretty isize depth ms).length := by
  cases ms with
  | nil => simp [fvObj, serObjItems]
  | cons m t =>
    obtain ⟨k, v⟩ := m
    have h1 := fv_le_serlen pretty isize depth v
    have h2 := fvObj_le_itemsLen pretty isize depth t
    simp only [fvObj, serObjItems, List.length_cons, List.length_append]
    omega

end

/-- Top-level round trip: parsing the rendering of any well-formed value (in
either mode) succeeds and yields its `normalize` image. -/
theorem parse_to_string (v : JVal) (hw : wf v = true) (pretty : Bool) :
    parse (to_string v pretty) = .ok (normalize v) := by
  have hfuel : fv v ≤ (serialize_value pretty 2 0 v).length + 1 :=
    le_trans (fv_le_serlen pretty 2 0 v) (by omega)
  obtain ⟨pos', hp⟩ := parse_value_ser ((serialize_value pretty 2 0 v).length + 1) v hw
    hfuel pretty 2 0 0 [] rfl
  rw [List.append_nil] at hp
  obtain ⟨b, t, hbt, hc⟩ := ser_head pretty 2 0 v
  have hbf := startByte_facts hc
  unfold parse to_string
  rw [skipWs_stop 0 (by rw [hbt]; simp [headNotWs, hbf.1])]
  dsimp only
  rw [hp]
  dsimp only
  rw [skipWs_nil]

/-! ### Lemmas: every parsed object is sorted -/

theorem ltB_total : ∀ a b : List Nat, a = b ∨ ltB a b = true ∨ ltB b a = true
  | [], [] => .inl rfl
  | [], _ :: _ => .inr (.inl rfl)
  | _ :: _, [] => .inr (.inr rfl)
  | x :: xs, y :: ys => by
    rcases Nat.lt_trichotomy x y with hxy | hxy | hxy
    · refine .inr (.inl ?_)
      simp [ltB, hxy]
    · subst hxy
      rcases ltB_total xs ys with h | h | h
      · exact .inl (by rw [h])
      · refine .inr (.inl ?_)
        simp [ltB, h]
      · refine .inr (.inr ?_)
        simp [ltB, h]
    · refine .inr (.inr ?_)
      simp [ltB, hxy]

theorem keyLtHead_emplace {k0 : List Nat} {t : List (List Nat × JVal)} {k : List Nat}
    (v : JVal) (h1 : keyLtHead k0 t = true) (h2 : ltB k0 k = true) :
    keyLtHead k0 (mapEmplace t k v) = true := by
  cases t with
  | nil => simpa [mapEmplace, keyLtHead] using h2
  | cons m t' =>
    obtain ⟨k1, v1⟩ := m
    simp only [keyLtHead] at h1
    unfold mapEmplace
    split
    · simpa [keyLtHead] using h2
    · split
      · simpa [keyLtHead] using h1
      · simpa [keyLtHead] using h1

theorem sortedVObj_emplace {m : List (List Nat × JVal)} {k : List Nat} {v : JVal}
    (hm : sortedVObj m = true) (hv : sortedV v = true) :
    sortedVObj (mapEmplace m k v) = true := by
  induction m with
  | nil => simp [mapEmplace, sortedVObj, keyLtHead, hv]
  | cons m0 t ih =>
    obtain ⟨k0, v0⟩ := m0
    have hm' := hm
    rw [sortedVObj] at hm'
    simp only [Bool.and_eq_true] at hm'
    obtain ⟨⟨ha, hb⟩, hc⟩ := hm'
    unfold mapEmplace
    split
    · next hlt =>
      rw [sortedVObj]
      simp only [Bool.and_eq_true, keyLtHead]
      exact ⟨⟨hv, hlt⟩, hm⟩
    · split
      · next hne heq => exact hm
      · next hlt hne =>
        have hgt : ltB k0 k = true := by
          rcases ltB_total k k0 with h | h | h
          · exact absurd h hne
          · exact absurd h (by simpa using hlt)
          · exact h
        rw [sortedVObj]
        simp only [Bool.and_eq_true]
        exact ⟨⟨ha, keyLtHead_emplace v hb hgt⟩, ih hc⟩

theorem parse_null_shape {pos : Nat} {s : List Nat} {v : JVal} {p : Nat} {r : List Nat}
    (h : parse_null pos s = .ok (v, p, r)) : v = .null := by
  unfold parse_null at h
  split at h
  · simp only [Except.ok.injEq, Prod.mk.injEq] at h
    exact h.1.symm
  · cases h

theorem parse_boolean_shape {pos : Nat} {s : List Nat} {v : JVal} {p : Nat} {r : List Nat}
    (h : parse_boolean pos s = .ok (v, p, r)) : ∃ b, v = .boolean b := by
  unfold parse_boolean at h
  split at h
  · simp only [Except.ok.injEq, Prod.mk.injEq] at h
    exact ⟨true, h.1.symm⟩
  · simp only [Except.ok.injEq, Prod.mk.injEq] at h
    exact ⟨false, h.1.symm⟩
  · cases h

theorem parse_number_shape {pos : Nat} {s : List Nat} {v : JVal} {p : Nat} {r : List Nat}
    (h : parse_number pos s = .ok (v, p, r)) :
    (∃ i, v = .integer i) ∨ (∃ q, v = .number q) := by
  unfold parse_number at h
  dsimp only at h
  repeat' split at h
  all_goals first
    | exact .inl ⟨_, rfl⟩
    | exact .inr ⟨_, rfl⟩
    | (simp only [Except.ok.injEq, Prod.mk.injEq] at h
       first
         | exact .inl ⟨_, h.1.symm⟩
         | exact .inr ⟨_, h.1.symm⟩)
    | cases h

theorem sortedVList_append {a : List JVal} {x : JVal} (ha : sortedVList a = true)
    (hx : sortedV x = true) : sortedVList (a ++ [x]) = true := by
  induction a with
  | nil => simp [sortedVList, hx]
  | cons y t ih =>
    rw [sortedVList] at ha
    simp only [Bool.and_eq_true] at ha
    rw [List.cons_append, sortedVList]
    simp only [Bool.and_eq_true]
    exact ⟨ha.1, ih ha.2⟩

theorem parse_array_sorted_aux (f : Nat)
    (hloop : ∀ {pos : Nat} {s : List Nat} {acc : List JVal} {v : JVal} {p : Nat}
        {r : List Nat},
      arrLoop f pos s acc = .ok (v, p, r) → sortedVList acc = true → sortedV v = true) :
    ∀ {pos : Nat} {s : List Nat} {v : JVal} {p : Nat} {r : List Nat},
      parse_array f pos s = .ok (v, p, r) → sortedV v = true := by
  intro pos s v p r h
  rw [parse_array.eq_def] at h
  cases s with
  | nil => cases h
  | cons b rest =>
    dsimp only at h
    split_ifs at h with h91 h93 <;>
    first
      | exact hloop h (by simp [sortedVList])
      | exact hloop h.symm (by simp [sortedVList])
      | (simp only [Except.ok.injEq, Prod.mk.injEq] at h
         first
           | (rw [← h.1]; simp [sortedV, sortedVList])
           | (rw [h.1]; simp [sortedV, sortedVList]))
      | cases h

theorem parse_object_sorted_aux (f : Nat)
    (hloop : ∀ {pos : Nat} {s : List Nat} {acc : List (List Nat × JVal)} {v : JVal}
        {p : Nat} {r : List Nat},
      objLoop f pos s acc = .ok (v, p, r) → sortedVObj acc = true → sortedV v = true) :
    ∀ {pos : Nat} {s : List Nat} {v : JVal} {p : Nat} {r : List Nat},
      parse_object f pos s = .ok (v, p, r) → sortedV v = true := by
  intro pos s v p r h
  rw [parse_object.eq_def] at h
  cases s with
  | nil => cases h
  | cons b rest =>
    dsimp only at h
    split_ifs at h with h123 h125 <;>
    first
      | exact hloop h (by simp [sortedVObj])
      | exact hloop h.symm (by simp [sortedVObj])
      | (simp only [Except.ok.injEq, Prod.mk.injEq] at h
         first
           | (rw [← h.1]; simp [sortedV, sortedVObj])
           | (rw [h.1]; simp [sortedV, sortedVObj]))
      | cases h

theorem sorted_all : ∀ f : Nat,
    (∀ {pos : Nat} {s : List Nat} {v : JVal} {p : Nat} {r : List Nat},
      parse_value f pos s = .ok (v, p, r) → sortedV v = true) ∧
    (∀ {pos : Nat} {s : List Nat} {acc : List JVal} {v : JVal} {p : Nat} {r : List Nat},
      arrLoop f pos s acc = .ok (v, p, r) → sortedVList acc = true → sortedV v = true) ∧
    (∀ {pos : Nat} {s : List Nat} {acc : List (List Nat × JVal)} {v : JVal} {p : Nat}
        {r : List Nat},
      objLoop f pos s acc = .ok (v, p, r) → sortedVObj acc = true → sortedV v = true) := by
  intro f
  induction f with
  | zero =>
    refine ⟨?_, ?_, ?_⟩
    · intro pos s v p r h
      rw [parse_value.eq_def] at h
      cases h
    · intro pos s acc v p r h hacc
      rw [arrLoop.eq_def] at h
      cases h
    · intro pos s acc v p r h hacc
      rw [objLoop.eq_def] at h
      cases h
  | succ g ih =>
    obtain ⟨ihv, ihA, ihO⟩ := ih
    refine ⟨?_, ?_, ?_⟩
    · intro pos s v p r h
      rw [parse_value.eq_def] at h
      dsimp only at h
      rcases hsw : skipWs pos s with ⟨pos1, s1⟩
      rw [hsw] at h
      dsimp only at h
      cases s1 with
      | nil => cases h
      | cons c t1 =>
        dsimp only at h
        split_ifs at h with h110 h116 h34c h91 h123 h45
        · rw [parse_null_shape h]
          simp [sortedV]
        · obtain ⟨b, hb⟩ := parse_boolean_shape h
          rw [hb]
          simp [sortedV]
        · rcases hps : parse_string_raw pos1 (c :: t1) with e | ⟨str, p2, s2⟩
          · rw [hps] at h
            cases h
          · rw [hps] at h
            dsimp only at h
            simp only [Except.ok.injEq, Prod.mk.injEq] at h
            rw [← h.1]
            simp [sortedV]
        · exact parse_array_sorted_aux g ihA h
        · exact parse_object_sorted_aux g ihO h
        · rcases parse_number_shape h with ⟨i, hi⟩ | ⟨q, hq⟩
          · rw [hi]
            simp [sortedV]
          · rw [hq]
            simp [sortedV]
    · intro pos s acc v p r h hacc
      rw [arrLoop.eq_def] at h
      dsimp only at h
      rcases hpv : parse_value g pos s with e | ⟨v1, pos1, s1⟩
      · rw [hpv] at h
        cases h
      · rw [hpv] at h
        dsimp only at h
        have hv1 : sortedV v1 = true := ihv hpv
        rcases hsw : skipWs pos1 s1 with ⟨pos2, s2⟩
        rw [hsw] at h
        dsimp only at h
        cases s2 with
        | nil => cases h
        | cons c rest =>
          dsimp only at h
          split_ifs at h with h93c h44 h93d <;>
          first
            | exact ihA h (sortedVList_append hacc hv1)
            | exact ihA h.symm (sortedVList_append hacc hv1)
            | (rw [show sortedV (JVal.array (acc ++ [v1]))
                  = sortedVList (acc ++ [v1]) from by simp [sortedV]]
               exact sortedVList_append hacc hv1)
            | (simp only [Except.ok.injEq, Prod.mk.injEq] at h
               first
                 | (rw [← h.1]
                    rw [show sortedV (JVal.array (acc ++ [v1]))
                        = sortedVList (acc ++ [v1]) from by simp [sortedV]]
                    exact sortedVList_append hacc hv1)
                 | (rw [h.1]
                    rw [show sortedV (JVal.array (acc ++ [v1]))
                        = sortedVList (acc ++ [v1]) from by simp [sortedV]]
                    exact sortedVList_append hacc hv1))
            | cases h
    · intro pos s acc v p r h hacc
      rw [objLoop.eq_def] at h
      dsimp only at h
      rcases hsw : skipWs pos s with ⟨pos1, s1⟩
      rw [hsw] at h
      dsimp only at h
      cases s1 with
      | nil => cases h
      | cons c0 t0 =>
        dsimp only at h
        split_ifs at h with h34
        rcases hps : parse_string_raw pos1 (c0 :: t0) with e | ⟨key, pos2, s2⟩
        · rw [hps] at h
          cases h
        · rw [hps] at h
          dsimp only at h
          rcases hsw2 : skipWs pos2 s2 with ⟨pos3, s3⟩
          rw [hsw2] at h
          dsimp only at h
          cases s3 with
          | nil => cases h
          | cons c s4 =>
            dsimp only at h
            split_ifs at h with h58
            · rcases hsw3 : skipWs (pos3 + 1) s4 with ⟨pos4, s5⟩
              rw [hsw3] at h
              dsimp only at h
              rcases hpv : parse_value g pos4 s5 with e | ⟨v1, pos5, s6⟩
              · rw [hpv] at h
                cases h
              · rw [hpv] at h
                dsimp only at h
                have hv1 : sortedV v1 = true := ihv hpv
                rcases hsw4 : skipWs pos5 s6 with ⟨pos6, s7⟩
                rw [hsw4] at h
                dsimp only at h
                cases s7 with
                | nil => cases h
                | cons c2 rest =>
                  dsimp only at h
                  split_ifs at h with h125 h44 h125b <;>
                  first
                    | exact ihO h (sortedVObj_emplace hacc hv1)
                    | exact ihO h.symm (sortedVObj_emplace hacc hv1)
                    | (rw [show sortedV (JVal.object (mapEmplace acc key v1))
                          = sortedVObj (mapEmplace acc key v1) from by simp [sortedV]]
                       exact sortedVObj_emplace hacc hv1)
                    | (simp only [Except.ok.injEq, Prod.mk.injEq] at h
                       first
                         | (rw [← h.1]
                            rw [show sortedV (JVal.object (mapEmplace acc key v1))
                                = sortedVObj (mapEmplace acc key v1) from by simp [sortedV]]
                            exact sortedVObj_emplace hacc hv1)
                         | (rw [h.1]
                            rw [show sortedV (JVal.object (mapEmplace acc key v1))
                                = sortedVObj (mapEmplace acc key v1) from by simp [sortedV]]
                            exact sortedVObj_emplace hacc hv1))
                    | cases h

theorem parse_value_sorted {f pos : Nat} {s : List Nat} {v : JVal} {p : Nat}
    {r : List Nat} (h : parse_value f pos s = .ok (v, p, r)) : sortedV v = true :=
  (sorted_all f).1 h

/-- Everything `parse` returns has strictly ascending keys in every object
node, whatever the order of the members in the source text. -/
theorem parse_sorted {s : List Nat} {v : JVal} (h : parse s = .ok v) :
    sortedV v = true := by
  unfold parse at h
  rcases hsw : skipWs 0 s with ⟨pos0, s0⟩
  rw [hsw] at h
  dsimp only at h
  rcases hpv : parse_value (s.length + 1) pos0 s0 with e | ⟨v1, pos1, s1⟩
  · rw [hpv] at h
    cases h
  · rw [hpv] at h
    dsimp only at h
    rcases hsw2 : skipWs pos1 s1 with ⟨pos2, s2⟩
    rw [hsw2] at h
    cases s2 with
    | nil =>
      dsimp only at h
      simp only [Except.ok.injEq] at h
      rw [← h]
      exact parse_value_sorted hpv
    | cons b t =>
      dsimp only at h
      cases h


/-! ### Lemmas: leading-zero number tokens -/

theorem isWs_digit_false {d : Nat} (hd : isDigit d = true) : isWs d = false := by
  rw [isDigit_iff] at hd
  rw [Bool.eq_false_iff]
  intro hw
  rw [isWs_iff] at hw
  omega

theorem fracPart_digit (pos : Nat) {d : Nat} (t : List Nat) (hd : isDigit d = true) :
    fracPart pos (d :: t) = .ok (none, pos, d :: t) := by
  rw [isDigit_iff] at hd
  unfold fracPart
  split
  · next heq => rcases heq with ⟨hb, ht⟩; omega
  · rfl

theorem expPart_digit (pos : Nat) {d : Nat} (t : List Nat) (hd : isDigit d = true) :
    expPart pos (d :: t) = .ok (none, pos, d :: t) := by
  rw [isDigit_iff] at hd
  show (if d = 101 ∨ d = 69 then _ else Except.ok (none, pos, d :: t)) = _
  rw [if_neg (by omega)]

theorem parse_number_zeroDigit (pos : Nat) {d : Nat} (t : List Nat)
    (hd : isDigit d = true) :
    parse_number pos (48 :: d :: t) = .ok (.integer 0, pos + 1, d :: t) := by
  unfold parse_number
  simp only [isDigit]
  norm_num
  rw [fracPart_digit _ _ hd]
  dsimp only
  rw [expPart_digit _ _ hd]
  dsimp only
  norm_num [digitsToNat]

theorem parse_number_negZeroDigit (pos : Nat) {d : Nat} (t : List Nat)
    (hd : isDigit d = true) :
    parse_number pos (45 :: 48 :: d :: t) = .ok (.integer 0, pos + 2, d :: t) := by
  unfold parse_number
  simp only [isDigit]
  norm_num
  rw [fracPart_digit _ _ hd]
  dsimp only
  rw [expPart_digit _ _ hd]
  dsimp only
  norm_num [digitsToNat]

theorem parse_zeroDigit_trailing {d : Nat} (t : List Nat) (hd : isDigit d = true) :
    parse (48 :: d :: t) = .error (.parse .unexpectedTrailing 1) := by
  have hw : isWs 48 = false := by decide
  have hwd : isWs d = false := isWs_digit_false hd
  unfold parse
  rw [skipWs_cons_not _ _ hw]
  dsimp only
  rw [parse_value.eq_def]
  simp only [List.length_cons]
  rw [skipWs_cons_not _ _ hw]
  dsimp only
  norm_num [isDigit]
  rw [parse_number_zeroDigit _ _ hd]
  dsimp only
  rw [skipWs_cons_not _ _ hwd]

theorem parse_negZeroDigit_trailing {d : Nat} (t : List Nat) (hd : isDigit d = true) :
    parse (45 :: 48 :: d :: t) = .error (.parse .unexpectedTrailing 2) := by
  have hw : isWs 45 = false := by decide
  have hwd : isWs d = false := isWs_digit_false hd
  unfold parse
  rw [skipWs_cons_not _ _ hw]
  dsimp only
  rw [parse_value.eq_def]
  simp only [List.length_cons]
  rw [skipWs_cons_not _ _ hw]
  dsimp only
  norm_num
  rw [parse_number_negZeroDigit _ _ hd]
  dsimp only
  rw [skipWs_cons_not _ _ hwd]

theorem parse_arrayZeroDigit_err {d : Nat} (t : List Nat) (hd : isDigit d = true) :
    parse (91 :: 48 :: d :: t) = .error (.parse (.expectedCommaOrBracket d) 2) := by
  have hw : isWs 91 = false := by decide
  have h48 : isWs 48 = false := by decide
  have hwd : isWs d = false := isWs_digit_false hd
  have hd' := isDigit_iff.mp hd
  unfold parse
  rw [skipWs_cons_not _ _ hw]
  dsimp only
  rw [parse_value.eq_def]
  simp only [List.length_cons]
  rw [skipWs_cons_not _ _ hw]
  dsimp only
  norm_num
  rw [parse_array.eq_def]
  dsimp only
  norm_num
  rw [skipWs_cons_not _ _ h48]
  dsimp only
  norm_num
  rw [arrLoop.eq_def]
  dsimp only
  rw [parse_value.eq_def]
  dsimp only
  rw [skipWs_cons_not _ _ h48]
  dsimp only
  norm_num [isDigit]
  rw [parse_number_zeroDigit _ _ hd]
  dsimp only
  rw [skipWs_cons_not _ _ hwd]
  dsimp only
  rw [if_neg (by omega), if_neg (by omega)]

theorem parse_objectZeroDigit_err {d : Nat} (t : List Nat) (hd : isDigit d = true) :
    parse (123 :: 34 :: 107 :: 34 :: 58 :: 48 :: d :: t) =
      .error (.parse (.expectedCommaOrBrace d) 6) := by
  have hw : isWs 123 = false := by decide
  have h34 : isWs 34 = false := by decide
  have h58 : isWs 58 = false := by decide
  have h48 : isWs 48 = false := by decide
  have hwd : isWs d = false := isWs_digit_false hd
  have hd' := isDigit_iff.mp hd
  unfold parse
  rw [skipWs_cons_not _ _ hw]
  dsimp only
  rw [parse_value.eq_def]
  simp only [List.length_cons]
  rw [skipWs_cons_not _ _ hw]
  dsimp only
  norm_num
  rw [parse_object.eq_def]
  dsimp only
  norm_num
  rw [skipWs_cons_not _ _ h34]
  dsimp only
  norm_num
  rw [objLoop.eq_def]
  dsimp only
  rw [skipWs_cons_not _ _ h34]
  dsimp only
  norm_num
  rw [show parse_string_raw (0 + 1) (34 :: 107 :: 34 :: 58 :: 48 :: d :: t)
      = strLoop (0 + 1 + 1) (107 :: 34 :: 58 :: 48 :: d :: t) [] from rfl]
  rw [strLoop.eq_def]
  norm_num
  rw [strLoop_quote]
  dsimp only
  rw [skipWs_cons_not _ _ h58]
  dsimp only
  norm_num
  rw [skipWs_cons_not _ _ h48]
  dsimp only
  rw [parse_value.eq_def]
  dsimp only
  rw [skipWs_cons_not _ _ h48]
  dsimp only
  norm_num [isDigit]
  rw [parse_number_zeroDigit _ _ hd]
  dsimp only
  rw [skipWs_cons_not _ _ hwd]
  dsimp only
  rw [if_neg (by omega), if_neg (by omega)]

/-! ### Lemmas: unicode escapes -/

theorem strLoop_unicode (pos a b c e : Nat) {d1 d2 d3 d4 : Nat} (rest acc : List Nat)
    (e1 : hexVal a = some d1) (e2 : hexVal b = some d2)
    (e3 : hexVal c = some d3) (e4 : hexVal e = some d4) :
    strLoop pos (92 :: 117 :: a :: b :: c :: e :: rest) acc =
      strLoop (pos + 6) rest (acc ++ utf8Encode (((d1 * 16 + d2) * 16 + d3) * 16 + d4)) := by
  rw [strLoop.eq_def]
  norm_num
  rw [e1]
  dsimp only
  rw [e2]
  dsimp only
  rw [e3]
  dsimp only
  rw [e4]

/-! ### The claims -/

/-- C1 (corrected): the spec promises last-write-wins on duplicate object
keys, but `parse_object` inserts with `std::map::emplace`, which keeps the
existing entry.  The corrected property: inserting under a key already present
in the (sorted) member map changes nothing, and
`parse("{\x22a\x22:1,\x22a\x22:2}")` yields an object whose only `"a"` entry
is the FIRST value `1`. -/
theorem C1_duplicate_keys_first_write_wins :
    (∀ (m : List (List Nat × JVal)) (k : List Nat) (w v : JVal),
      keysSorted m = true → mapFind m k = some w → mapEmplace m k v = m) ∧
    parse [123, 34, 97, 34, 58, 49, 44, 34, 97, 34, 58, 50, 125] =
      .ok (.object [([97], JVal.integer 1)]) ∧
    JVal.atKey (.object [([97], JVal.integer 1)]) [97] = .ok (JVal.integer 1) := by
  refine ⟨fun m k w v hs hf => mapEmplace_existing v hs (by rw [hf]; rfl), ?_, ?_⟩
  · simp [parse, parse_value, parse_object, objLoop, parse_string_raw, strLoop,
      parse_number, skipWs, fracPart, expPart, takeDigits, digitsToNat, isWs,
      isDigit, mapEmplace, ltB, hexVal, utf8Encode]
  · simp [JVal.atKey, mapFind]

/-- C1 counterexample: the spec's own example is false — the `"a"` entry of
`parse("{\x22a\x22:1,\x22a\x22:2}")` is the integer `1`, not the claimed
last-written `2`. -/
theorem C1_last_write_wins_refuted :
    parse [123, 34, 97, 34, 58, 49, 44, 34, 97, 34, 58, 50, 125] =
      .ok (.object [([97], JVal.integer 1)]) ∧
    JVal.atKey (.object [([97], JVal.integer 1)]) [97] ≠ .ok (JVal.integer 2) := by
  constructor
  · simp [parse, parse_value, parse_object, objLoop, parse_string_raw, strLoop,
      parse_number, skipWs, fracPart, expPart, takeDigits, digitsToNat, isWs,
      isDigit, mapEmplace, ltB, hexVal, utf8Encode]
  · simp [JVal.atKey, mapFind]

/-- C2 (code bug): the claimed round trip fails on `value{1.5}` — a
`number`-tagged leaf with non-integral payload, which the claim explicitly
covers.  Because `value::type()` swaps the numeric tags, the serializer renders
the double `1.5` through `as_integer()` as `"1"`, which re-parses as the
`integer`-tagged `1`, not structurally equal to the original. -/
theorem C2_roundtrip_drops_number_tag :
    wf (JVal.number (3 / 2)) = true ∧
    to_string (JVal.number (3 / 2)) false = [49] ∧
    parse (to_string (JVal.number (3 / 2)) false) = .ok (JVal.integer 1) ∧
    JVal.integer 1 ≠ JVal.number (3 / 2) := by
  have hrt : ratTrunc (3 / 2) = 1 := by
    unfold ratTrunc
    rw [if_neg (by norm_num)]
    norm_num
  have hts : to_string (JVal.number (3 / 2)) false = [49] := by
    rw [to_string]
    rw [show serialize_value false 2 0 (JVal.number (3 / 2)) = serInt (ratTrunc (3 / 2))
        from by simp [serialize_value]]
    rw [hrt]
    simp [serInt, natToDigits]
  refine ⟨?_, hts, ?_, by simp⟩
  · simp [wf, hrt, intInRange]
  · rw [hts]
    simp [parse, parse_value, parse_number, skipWs, fracPart, expPart, takeDigits,
      digitsToNat, isWs, isDigit]

/-- C3: for every value of the C++ model, the pretty rendering and the compact
rendering re-parse to the same tree (both to the `normalize` image); checked
also on the concrete value `[null, true]`, where re-parsing recovers the value
itself. -/
theorem C3_pretty_reparse_equals_compact :
    (∀ v : JVal, wf v = true → parse (to_string v true) = parse (to_string v false)) ∧
    parse (to_string (JVal.array [JVal.null, JVal.boolean true]) true) =
      parse (to_string (JVal.array [JVal.null, JVal.boolean true]) false) ∧
    parse (to_string (JVal.array [JVal.null, JVal.boolean true]) true) =
      .ok (JVal.array [JVal.null, JVal.boolean true]) := by
  have hwf : wf (JVal.array [JVal.null, JVal.boolean true]) = true := by
    simp [wf, wfList]
  refine ⟨fun v hw => ?_, ?_, ?_⟩
  · rw [parse_to_string v hw true, parse_to_string v hw false]
  · rw [parse_to_string _ hwf true, parse_to_string _ hwf false]
  · rw [parse_to_string _ hwf true]
    simp [normalize, normalizeList]

/-- C4: a number token whose integer part is `0` followed by another digit is
rejected: after `parse_number` consumes the lone `0`, the next digit is
unconsumed input, and every context turns it into a `parse_exception` — at top
level "Unexpected characters after JSON value", inside an array "Expected ','
or ']'", inside an object "Expected ',' or '}'"; concretely `parse("012")`
fails. -/
theorem C4_leading_zero_rejected :
    (∀ (d : Nat) (t : List Nat), isDigit d = true →
      parse (48 :: d :: t) = .error (.parse .unexpectedTrailing 1) ∧
      parse (45 :: 48 :: d :: t) = .error (.parse .unexpectedTrailing 2) ∧
      parse (91 :: 48 :: d :: t) = .error (.parse (.expectedCommaOrBracket d) 2) ∧
      parse (123 :: 34 :: 107 :: 34 :: 58 :: 48 :: d :: t) =
        .error (.parse (.expectedCommaOrBrace d) 6)) ∧
    parse [48, 49, 50] = .error (.parse .unexpectedTrailing 1) := by
  refine ⟨fun d t hd => ⟨parse_zeroDigit_trailing t hd, parse_negZeroDigit_trailing t hd,
    parse_arrayZeroDigit_err t hd, parse_objectZeroDigit_err t hd⟩, ?_⟩
  exact parse_zeroDigit_trailing [50] rfl

/-- C5: on an object-tagged value, `at` with an absent key fails with the
not-found error carrying the key; that error is distinct from every
`type_exception` and every `parse_exception`, and the lookup is read-only in
the model.  Concretely, looking up `"b"` in `{"a": 1}` is the not-found
error for `"b"`. -/
theorem C5_at_absent_key_not_found :
    (∀ (m : List (List Nat × JVal)) (key : List Nat), mapFind m key = none →
      JVal.atKey (JVal.object m) key = .error (.notFound key)) ∧
    (∀ (key : List Nat) (t : TMsg), JErr.notFound key ≠ JErr.type t) ∧
    (∀ (key : List Nat) (p : PMsg) (n : Nat), JErr.notFound key ≠ JErr.parse p n) ∧
    JVal.atKey (JVal.object [([97], JVal.integer 1)]) [98] =
      .error (.notFound [98]) := by
  refine ⟨fun m key hf => ?_, fun key t h => JErr.noConfusion h,
    fun key p n h => JErr.noConfusion h, ?_⟩
  · simp only [JVal.atKey]
    rw [hf]
  · simp [JVal.atKey, mapFind]

/-- C6: `as_integer` returns the payload on an integer tag, the truncation on
a number tag, and the "not a number" type error otherwise; `as_number` returns
the payload on a number tag, the (exact, in the model) widening on an integer
tag, and the same type error otherwise; the non-numeric accessors never
coerce.  Concretely `parse("123")` is the integer `123`, whose `as_integer`
is `123`, `as_number` is `123`, and `as_string` is a type error. -/
theorem C6_numeric_coercions :
    (∀ i : Int, JVal.as_integer (JVal.integer i) = .ok i) ∧
    (∀ q : ℚ, JVal.as_integer (JVal.number q) = .ok (ratTrunc q)) ∧
    (∀ v : JVal, v.is_integer = false → v.is_number = false →
      JVal.as_integer v = .error (.type .notNumber)) ∧
    (∀ q : ℚ, JVal.as_number (JVal.number q) = .ok q) ∧
    (∀ i : Int, JVal.as_number (JVal.integer i) = .ok (i : ℚ)) ∧
    (∀ v : JVal, v.is_integer = false → v.is_number = false →
      JVal.as_number v = .error (.type .notNumber)) ∧
    (∀ v : JVal, v.is_string = false → JVal.as_string v = .error (.type .notString)) ∧
    (∀ v : JVal, v.is_boolean = false → JVal.as_boolean v = .error (.type .notBoolean)) ∧
    parse [49, 50, 51] = .ok (JVal.integer 123) ∧
    JVal.as_integer (JVal.integer 123) = .ok 123 ∧
    JVal.as_number (JVal.integer 123) = .ok 123 ∧
    JVal.as_string (JVal.integer 123) = .error (.type .notString) := by
  refine ⟨fun i => rfl, fun q => rfl,
    fun v h1 h2 => ?_, fun q => rfl, fun i => rfl, fun v h1 h2 => ?_,
    fun v h1 => ?_, fun v h1 => ?_, ?_, rfl, rfl, rfl⟩
  · cases v <;> first | rfl | simp_all [JVal.is_integer, JVal.is_number]
  · cases v <;> first | rfl | simp_all [JVal.is_integer, JVal.is_number]
  · cases v <;> first | rfl | simp_all [JVal.is_string]
  · cases v <;> first | rfl | simp_all [JVal.is_boolean]
  · simp [parse, parse_value, parse_number, skipWs, fracPart, expPart, takeDigits,
      digitsToNat, isWs, isDigit]

/-- C7 (code bug): the spec says a double renders in plain-integer form only
when it equals its own truncation.  The double `2.5` does not, yet the
serializer renders it as `"2"` (no decimal point): `serialize_value` dispatches
on the swapped `value::type()` tag and streams every double through
`as_integer()`.  The claimed behaviour is exactly `serialize_number`, which
would render `"2.5"` — but is never reached for a number-tagged value. -/
theorem C7_number_rendered_as_truncated_integer :
    to_string (JVal.number (5 / 2)) false = [50] ∧
    ((ratTrunc (5 / 2) : Int) : ℚ) ≠ (5 / 2 : ℚ) ∧
    46 ∉ ([50] : List Nat) ∧
    serialize_number (5 / 2) = [50, 46, 53] := by
  have hrt : ratTrunc (5 / 2) = 2 := by
    unfold ratTrunc
    rw [if_neg (by norm_num)]
    norm_num
  refine ⟨?_, ?_, by decide, ?_⟩
  · rw [to_string]
    rw [show serialize_value false 2 0 (JVal.number (5 / 2)) = serInt (ratTrunc (5 / 2))
        from by simp [serialize_value]]
    rw [hrt]
    simp [serInt, natToDigits]
  · rw [hrt]
    norm_num
  · have h2 : countTwo 2 = 1 := by
      rw [countTwo, dif_pos (by norm_num), countTwo, dif_neg (by norm_num)]
    have h5 : countFive 2 = 0 := by rw [countFive, dif_neg (by norm_num)]
    have hd2 : natToDigits 2 = [50] := by rw [natToDigits]; norm_num
    have hd5 : natToDigits 5 = [53] := by rw [natToDigits]; norm_num
    unfold serialize_number
    rw [if_neg (by norm_num)]
    unfold serDecimal
    norm_num [h2, h5, hd2, hd5, padZeros]

/-- C8: every object anywhere in a parsed value has strictly ascending
(lexicographic) keys, whatever the member order of the source text, and the
serializer emits members in that stored order; concretely
`parse("{\x22b\x22:1,\x22a\x22:2}")` stores `"a"` before `"b"` and renders as
`{"a":2,"b":1}`. -/
theorem C8_object_keys_sorted :
    (∀ (s : List Nat) (v : JVal), parse s = .ok v → sortedV v = true) ∧
    parse [123, 34, 98, 34, 58, 49, 44, 34, 97, 34, 58, 50, 125] =
      .ok (.object [([97], JVal.integer 2), ([98], JVal.integer 1)]) ∧
    to_string (.object [([97], JVal.integer 2), ([98], JVal.integer 1)]) false =
      [123, 34, 97, 34, 58, 50, 44, 34, 98, 34, 58, 49, 125] := by
  refine ⟨fun s v h => parse_sorted h, ?_, ?_⟩
  · simp [parse, parse_value, parse_object, objLoop, parse_string_raw, strLoop,
      parse_number, skipWs, fracPart, expPart, takeDigits, digitsToNat, isWs,
      isDigit, mapEmplace, ltB, hexVal, utf8Encode]
  · simp [to_string, serialize_value, serialize_object, serObjItems, serialize_string,
      escByte, serialize_number, serInt, natToDigits, nlBytes, indentBytes, spBytes,
      hexLower, List.flatMap]

/-- C9: each `\uXXXX` escape decodes its four hex digits to one code unit and
appends that unit's independent UTF-8 encoding — 1 byte up to 0x7F, 2 bytes up
to 0x7FF, 3 bytes up to 0xFFFF; a high/low surrogate pair of escapes yields the
two 3-byte encodings, not the single 4-byte code point (`"😀"`
becomes six bytes, not U+1F600's `F0 9F 98 80`); and `"A"` parses to
`"A"`. -/
theorem C9_unicode_escape_per_unit :
    (∀ (pos a b c e : Nat) (rest acc : List Nat) (d1 d2 d3 d4 : Nat),
      hexVal a = some d1 → hexVal b = some d2 → hexVal c = some d3 →
      hexVal e = some d4 →
      strLoop pos (92 :: 117 :: a :: b :: c :: e :: rest) acc =
        strLoop (pos + 6) rest
          (acc ++ utf8Encode (((d1 * 16 + d2) * 16 + d3) * 16 + d4))) ∧
    (∀ c : Nat, c ≤ 127 → utf8Encode c = [c]) ∧
    (∀ c : Nat, 128 ≤ c → c ≤ 2047 →
      utf8Encode c = [192 ||| (c >>> 6), 128 ||| (c &&& 63)]) ∧
    (∀ c : Nat, 2048 ≤ c →
      utf8Encode c = [224 ||| (c >>> 12), 128 ||| ((c >>> 6) &&& 63),
        128 ||| (c &&& 63)]) ∧
    parse [34, 92, 117, 48, 48, 52, 49, 34] = .ok (JVal.string [65]) ∧
    parse [34, 92, 117, 68, 56, 51, 68, 92, 117, 68, 69, 48, 48, 34] =
      .ok (JVal.string [237, 160, 189, 237, 184, 128]) ∧
    utf8Encode 55357 ++ utf8Encode 56832 = [237, 160, 189, 237, 184, 128] ∧
    ([237, 160, 189, 237, 184, 128] : List Nat) ≠ [240, 159, 152, 128] := by
  refine ⟨fun pos a b c e rest acc d1 d2 d3 d4 e1 e2 e3 e4 =>
      strLoop_unicode pos a b c e rest acc e1 e2 e3 e4,
    fun c hc => by rw [utf8Encode, if_pos hc],
    fun c hc1 hc2 => by rw [utf8Encode, if_neg (by omega), if_pos (by omega)],
    fun c hc => by rw [utf8Encode, if_neg (by omega), if_neg (by omega)],
    ?_, ?_, by decide, by decide⟩
  · simp [parse, parse_value, parse_string_raw, strLoop, skipWs, isWs, isDigit,
      hexVal, utf8Encode]
  · have hb1 : 128 ||| 864 &&& 63 = 160 := by decide
    have hb2 : 128 ||| 55357 &&& 63 = 189 := by decide
    have hb3 : 128 ||| 888 &&& 63 = 184 := by decide
    have hb4 : 128 ||| 56832 &&& 63 = 128 := by decide
    have hb5 : 224 ||| 55357 >>> 12 = 237 := by decide
    have hb6 : 224 ||| 56832 >>> 12 = 237 := by decide
    have hb7 : 55357 >>> 6 = 864 := by decide
    have hb8 : 56832 >>> 6 = 888 := by decide
    simp [parse, parse_value, parse_string_raw, strLoop, skipWs, isWs, isDigit,
      hexVal, utf8Encode, hb1, hb2, hb3, hb4, hb5, hb6, hb7, hb8]

/-- C10: positional indexing on a non-array value is an unchecked
`std::get`, failing with `std::bad_variant_access` — an error distinct from
every `type_exception` — while `push_back`, `as_array` and (on values that are
neither array nor object) `size` and `empty` all fail with the library's
type error; concretely indexing the integer `5` is the bad-variant-access
failure. -/
theorem C10_index_unchecked_variant_access :
    (∀ (v : JVal) (i : Nat), v.is_array = false →
      JVal.indexPos v i = .error .badVariantAccess) ∧
    (∀ (v w : JVal), v.is_array = false →
      JVal.push_back v w = .error (.type .notArray)) ∧
    (∀ v : JVal, v.is_array = false → JVal.as_array v = .error (.type .notArray)) ∧
    (∀ v : JVal, v.is_array = false → v.is_object = false →
      JVal.size v = .error (.type .notArrayOrObject) ∧
      JVal.empty v = .error (.type .notArrayOrObject)) ∧
    (∀ t : TMsg, JErr.badVariantAccess ≠ JErr.type t) ∧
    JVal.indexPos (JVal.integer 5) 0 = .error .badVariantAccess := by
  refine ⟨fun v i h => ?_, fun v w h => ?_, fun v h => ?_, fun v h1 h2 => ?_,
    fun t h => JErr.noConfusion h, rfl⟩
  · cases v <;> first | rfl | simp_all [JVal.is_array]
  · cases v <;> first | rfl | simp_all [JVal.is_array]
  · cases v <;> first | rfl | simp_all [JVal.is_array]
  · cases v <;> first | exact ⟨rfl, rfl⟩ | simp_all [JVal.is_array, JVal.is_object]

end Jsonpp
